import Mathlib

/-!
Verification of the covsearch stepwise search and workflow layer of this
repository.  The covariate-search algorithm (`task_greedy_forward_search` in
`src/pharmpy/tools/covsearch/tool.py`) is embedded as a step function on an
explicit search state; the execution engine (`call_workflow`) and the
likelihood-ratio utilities, which the code treats as external collaborators,
are abstracted as function parameters.  Python object identity on models is
modelled by equality on the model type together with explicit freshness
hypotheses (the code only compares models that are created as fresh copies).
-/

namespace Pharmpy

/-- The `Effect` dataclass of `covsearch/tool.py` (also the shape of an
`EffectLiteral` tuple `(parameter, covariate, fp, operation)`). -/
structure Effect where
  parameter : String
  covariate : String
  fp : String
  operation : String
deriving DecidableEq

/-- The `Step` dataclass with its `ForwardStep`/`BackwardStep` subclasses:
one modification decision together with the significance threshold used. -/
inductive Step where
  | forward (alpha : Rat) (effect : Effect)
  | backward (alpha : Rat) (effect : Effect)
deriving DecidableEq

/-- `step.alpha` field access. -/
def Step.alpha : Step → Rat
  | .forward a _ => a
  | .backward a _ => a

/-- `step.effect` field access. -/
def Step.effect : Step → Effect
  | .forward _ e => e
  | .backward _ e => e

/-- `isinstance(step, BackwardStep)` as used by `_marke_df_steps_row`. -/
def Step.is_backward : Step → Bool
  | .forward _ _ => false
  | .backward _ _ => true

/-- The `Candidate` dataclass: a model paired with the steps producing it. -/
structure Candidate (M : Type) where
  model : M
  steps : List Step
deriving DecidableEq

/-- The loop state of `task_greedy_forward_search`: the round counter
`step`, `candidate_effects`, `best_candidate_so_far` and
`all_candidates_so_far`. -/
structure SearchState (M : Type) where
  step : Nat
  candidate_effects : List Effect
  best : Candidate M
  all : List (Candidate M)
deriving DecidableEq

/-- Outcome of one iteration of the `for step in steps` loop body:
`done` models `return`/`break` with the returned candidate list, `failed`
models an uncaught Python exception (`StopIteration` from `next`, or
`IndexError` from `steps[-1]`), `next` continues to the next round. -/
inductive RoundResult (M : Type) where
  | done (res : List (Candidate M))
  | failed
  | next (s : SearchState M)
deriving DecidableEq

/-- The predicate of the `candidate_effects` list comprehension: an effect is
kept when `effect[0] != added_effect.parameter or effect[1] !=
added_effect.covariate`. -/
def keepEffect (added : Effect) (e : Effect) : Bool :=
  decide (e.parameter ≠ added.parameter ∨ e.covariate ≠ added.covariate)

/-- The candidates appended by one round:
`Candidate(model, best.steps + (ForwardStep(p_forward, AddEffect(*effect)),))`
for `model, effect in zip(new_candidate_models, candidate_effects)`.
`cw` abstracts `call_workflow(wf_effects_addition(best.model, effects), ...)`,
taking the round number, the parent model and the effects. -/
def roundCandidates (cw : Nat → M → List Effect → List M) (p_forward : Rat)
    (s : SearchState M) : List (Candidate M) :=
  ((cw s.step s.best.model s.candidate_effects).zip s.candidate_effects).map
    (fun me => Candidate.mk me.1 (s.best.steps ++ [Step.forward p_forward me.2]))

/-- One iteration of the loop body of `task_greedy_forward_search`.
`bom` abstracts `lrt_best_of_many(parent, new_candidate_models, p_forward)`;
the Python `is` comparisons become equality on `M` (sound for the fresh
model copies the code manipulates). -/
def searchRound [DecidableEq M] (cw : Nat → M → List Effect → List M)
    (bom : M → List M → M) (p_forward : Rat) (s : SearchState M) :
    RoundResult M :=
  if s.candidate_effects.isEmpty then .done s.all
  else
    let new_candidate_models := cw s.step s.best.model s.candidate_effects
    let all' := s.all ++ roundCandidates cw p_forward s
    let parent := s.best.model
    let best_model_so_far := bom parent new_candidate_models
    if best_model_so_far = parent then .done all'
    else
      match all'.find? (fun c => decide (c.model = best_model_so_far)) with
      | none => .failed
      | some best' =>
        match best'.steps.getLast? with
        | none => .failed
        | some last =>
          .next (SearchState.mk (s.step + 1)
            (s.candidate_effects.filter (keepEffect last.effect))
            best' all')

/-- Final result of the search: the returned candidate list, or a Python
exception escaping the function. -/
inductive SearchOutcome (M : Type) where
  | ok (cands : List (Candidate M))
  | exn
deriving DecidableEq

/-- The loop driver for `max_steps >= 0`: `for step in range(1, max_steps+1)`.
Exhausting the range returns `all_candidates_so_far`. -/
def searchBounded [DecidableEq M] (cw : Nat → M → List Effect → List M)
    (bom : M → List M → M) (p_forward : Rat) :
    Nat → SearchState M → SearchOutcome M
  | 0, s => .ok s.all
  | Nat.succ n, s =>
    match searchRound cw bom p_forward s with
    | .done r => .ok r
    | .failed => .exn
    | .next s' => searchBounded cw bom p_forward n s'

/-- The loop driver for the unbounded `count(1)` range (`max_steps < 0`).
The fuel only bounds how many `next` transitions we unfold; `none` means the
loop was still running after `fuel` rounds (potential divergence). -/
def searchUnbounded [DecidableEq M] (cw : Nat → M → List Effect → List M)
    (bom : M → List M → M) (p_forward : Rat) :
    Nat → SearchState M → Option (SearchOutcome M)
  | 0, s =>
    match searchRound cw bom p_forward s with
    | .done r => some (.ok r)
    | .failed => some .exn
    | .next _ => none
  | Nat.succ n, s =>
    match searchRound cw bom p_forward s with
    | .done r => some (.ok r)
    | .failed => some .exn
    | .next s' => searchUnbounded cw bom p_forward n s'

/-- The state at the top of the first loop iteration:
`best_candidate_so_far = Candidate(model, ())`,
`all_candidates_so_far = [best_candidate_so_far]`, round counter 1. -/
def initState (effects : List Effect) (model : M) : SearchState M :=
  SearchState.mk 1 effects (Candidate.mk model []) [Candidate.mk model []]

/-- `task_greedy_forward_search(effects, p_forward, max_steps, model)`.
For `max_steps >= 0` the range bounds the loop; for negative `max_steps`
(the unbounded default) `fuel` bounds how far we unfold the loop, `none`
standing for a loop that has not yet returned. -/
def task_greedy_forward_search [DecidableEq M]
    (cw : Nat → M → List Effect → List M) (bom : M → List M → M)
    (effects : List Effect) (p_forward : Rat) (max_steps : Int) (model : M)
    (fuel : Nat) : Option (SearchOutcome M) :=
  if 0 ≤ max_steps then
    some (searchBounded cw bom p_forward max_steps.toNat (initState effects model))
  else searchUnbounded cw bom p_forward fuel (initState effects model)

/-- States reachable from `s` by complete loop iterations. -/
inductive Reaches [DecidableEq M] (cw : Nat → M → List Effect → List M)
    (bom : M → List M → M) (p_forward : Rat) :
    SearchState M → SearchState M → Prop
  | refl (s : SearchState M) : Reaches cw bom p_forward s s
  | step {s t t' : SearchState M} : Reaches cw bom p_forward s t →
      searchRound cw bom p_forward t = .next t' → Reaches cw bom p_forward s t'

/-- Inversion of a loop iteration that continues to the next round. -/
theorem searchRound_next_inv [DecidableEq M] {cw : Nat → M → List Effect → List M}
    {bom : M → List M → M} {p_forward : Rat} {s s' : SearchState M}
    (h : searchRound cw bom p_forward s = .next s') :
    ∃ best' last,
      (s.all ++ roundCandidates cw p_forward s).find?
          (fun c => decide (c.model = bom s.best.model (cw s.step s.best.model s.candidate_effects)))
        = some best'
      ∧ best'.steps.getLast? = some last
      ∧ bom s.best.model (cw s.step s.best.model s.candidate_effects) ≠ s.best.model
      ∧ s.candidate_effects ≠ []
      ∧ s' = SearchState.mk (s.step + 1)
          (s.candidate_effects.filter (keepEffect last.effect)) best'
          (s.all ++ roundCandidates cw p_forward s) := by
  simp only [searchRound] at h
  split at h
  · simp at h
  · rename_i he
    split at h
    · simp at h
    · rename_i hb
      split at h
      · simp at h
      · rename_i best' hf
        split at h
        · simp at h
        · rename_i last hl
          refine ⟨best', last, hf, hl, hb, ?_, ?_⟩
          · intro hnil; exact he (by simp [hnil])
          · cases h; rfl

/-- Inversion of a loop iteration that returns. -/
theorem searchRound_done_inv [DecidableEq M] {cw : Nat → M → List Effect → List M}
    {bom : M → List M → M} {p_forward : Rat} {s : SearchState M}
    {r : List (Candidate M)}
    (h : searchRound cw bom p_forward s = .done r) :
    (s.candidate_effects = [] ∧ r = s.all) ∨
    (s.candidate_effects ≠ []
      ∧ bom s.best.model (cw s.step s.best.model s.candidate_effects) = s.best.model
      ∧ r = s.all ++ roundCandidates cw p_forward s) := by
  simp only [searchRound] at h
  split at h
  · rename_i he
    left
    exact ⟨List.isEmpty_iff.mp he, by cases h; rfl⟩
  · rename_i he
    right
    split at h
    · rename_i hb
      exact ⟨fun hnil => he (by simp [hnil]), hb, by cases h; rfl⟩
    · split at h
      · simp at h
      · split at h
        · simp at h
        · simp at h

/-- If the ranking returns the parent, the round body returns the extended
candidate history at once. -/
theorem searchRound_parent_done [DecidableEq M] {cw : Nat → M → List Effect → List M}
    {bom : M → List M → M} {p_forward : Rat} {s : SearchState M}
    (hne : s.candidate_effects ≠ [])
    (hbom : bom s.best.model (cw s.step s.best.model s.candidate_effects) = s.best.model) :
    searchRound cw bom p_forward s = .done (s.all ++ roundCandidates cw p_forward s) := by
  unfold searchRound
  have he : s.candidate_effects.isEmpty = false := by
    simpa [List.isEmpty_iff] using hne
  simp [he, hbom]

/-- C2: in any round of `task_greedy_forward_search`, if the
likelihood-ratio ranking (`lrt_best_of_many` over the parent model and the
round's fitted candidate models at threshold `p_forward`, abstracted by
`bom`) returns the parent model itself, then the search returns immediately,
and the returned list is the full candidate history accumulated so far plus
every candidate created in the just-rejected round — in particular the
zero-step starting candidate at the head of the history is returned. -/
theorem covsearch_parent_selected_returns_history [DecidableEq M]
    {cw : Nat → M → List Effect → List M} {bom : M → List M → M}
    {p_forward : Rat} (s : SearchState M)
    (hne : s.candidate_effects ≠ [])
    (hbom : bom s.best.model (cw s.step s.best.model s.candidate_effects) = s.best.model) :
    searchRound cw bom p_forward s = .done (s.all ++ roundCandidates cw p_forward s)
    ∧ (∀ n : Nat,
        searchBounded cw bom p_forward (n + 1) s
          = .ok (s.all ++ roundCandidates cw p_forward s))
    ∧ (∀ fuel : Nat,
        searchUnbounded cw bom p_forward fuel s
          = some (.ok (s.all ++ roundCandidates cw p_forward s)))
    ∧ (∀ c, c ∈ s.all → c ∈ s.all ++ roundCandidates cw p_forward s)
    ∧ (∀ c, c ∈ roundCandidates cw p_forward s →
        c ∈ s.all ++ roundCandidates cw p_forward s) := by
  have hr := @searchRound_parent_done M _ cw bom p_forward s hne hbom
  refine ⟨hr, ?_, ?_, ?_, ?_⟩
  · intro n
    simp [searchBounded, hr]
  · intro fuel
    cases fuel <;> simp [searchUnbounded, hr]
  · intro c hc; exact List.mem_append_left _ hc
  · intro c hc; exact List.mem_append_right _ hc

/-- Concrete fixtures used by the witnesses: covariate effects on
`(CL, WGT)` (two functional forms) and on `(V, WGT)`. -/
def effCLWGT : Effect := Effect.mk "CL" "WGT" "exp" "*"

/-- Same `(parameter, covariate)` pair as `effCLWGT`, different functional
form. -/
def effCLWGTpow : Effect := Effect.mk "CL" "WGT" "pow" "*"

/-- A different `(parameter, covariate)` pair. -/
def effVWGT : Effect := Effect.mk "V" "WGT" "exp" "*"

theorem covsearch_parent_selected_returns_history_witness :
    (initState [effCLWGT] (0 : Nat)).candidate_effects ≠ []
    ∧ searchRound (fun _ _ _ => [5]) (fun p _ => p) (0 : Rat)
          (initState [effCLWGT] (0 : Nat))
        = .done ((initState [effCLWGT] (0 : Nat)).all
            ++ roundCandidates (fun _ _ _ => [5]) (0 : Rat)
                (initState [effCLWGT] (0 : Nat))) :=
  ⟨by decide,
    (@covsearch_parent_selected_returns_history Nat _
      (fun _ _ _ => [5]) (fun p _ => p) (0 : Rat)
      (initState [effCLWGT] (0 : Nat)) (by decide) rfl).1⟩

/-- C3: after a round selects a winning candidate (`searchRound` continues
with new state `s'`) whose last step added effect `E` (= `last.effect`), a
remaining candidate effect survives into the next round's pool exactly when
it differs from `E` in parameter or in covariate; an effect sharing both the
parameter and the covariate of `E` is removed even when its functional form
or operation differs. -/
theorem covsearch_effect_pool_filter [DecidableEq M]
    {cw : Nat → M → List Effect → List M} {bom : M → List M → M}
    {p_forward : Rat} {s s' : SearchState M}
    (h : searchRound cw bom p_forward s = .next s') :
    ∃ last, s'.best.steps.getLast? = some last
      ∧ (∀ e, e ∈ s'.candidate_effects ↔
          (e ∈ s.candidate_effects
            ∧ (e.parameter ≠ last.effect.parameter
                ∨ e.covariate ≠ last.effect.covariate)))
      ∧ (∀ e, e ∈ s.candidate_effects → e.parameter = last.effect.parameter →
          e.covariate = last.effect.covariate → e ∉ s'.candidate_effects)
      ∧ (∀ e, e ∈ s.candidate_effects →
          (e.parameter ≠ last.effect.parameter
            ∨ e.covariate ≠ last.effect.covariate) → e ∈ s'.candidate_effects) := by
  obtain ⟨best', last, hf, hl, hb, hne, hs'⟩ := searchRound_next_inv h
  refine ⟨last, by rw [hs']; exact hl, ?_, ?_, ?_⟩
  · intro e
    rw [hs']
    simp [List.mem_filter, keepEffect]
  · intro e he hp hc habs
    rw [hs'] at habs
    rw [List.mem_filter] at habs
    have hkeep := habs.2
    simp [keepEffect, hp, hc] at hkeep
  · intro e he hco
    rw [hs']
    simp [List.mem_filter, keepEffect]
    exact ⟨he, hco⟩

theorem covsearch_effect_pool_filter_witness :
    (searchRound (fun _ _ _ => [10, 20, 30]) (fun _ ms => ms.headD 0) (0 : Rat)
        (initState [effCLWGT, effCLWGTpow, effVWGT] (0 : Nat))
      = .next (SearchState.mk 2 [effVWGT]
          (Candidate.mk 10 [Step.forward (0 : Rat) effCLWGT])
          [Candidate.mk 0 [],
            Candidate.mk 10 [Step.forward (0 : Rat) effCLWGT],
            Candidate.mk 20 [Step.forward (0 : Rat) effCLWGTpow],
            Candidate.mk 30 [Step.forward (0 : Rat) effVWGT]]))
    ∧ ∃ last,
        (SearchState.mk 2 [effVWGT]
            (Candidate.mk 10 [Step.forward (0 : Rat) effCLWGT])
            [Candidate.mk 0 [],
              Candidate.mk 10 [Step.forward (0 : Rat) effCLWGT],
              Candidate.mk 20 [Step.forward (0 : Rat) effCLWGTpow],
              Candidate.mk 30 [Step.forward (0 : Rat) effVWGT]]).best.steps.getLast?
          = some last
        ∧ (∀ e, e ∈ (SearchState.mk 2 [effVWGT]
            (Candidate.mk 10 [Step.forward (0 : Rat) effCLWGT])
            [Candidate.mk 0 [],
              Candidate.mk 10 [Step.forward (0 : Rat) effCLWGT],
              Candidate.mk 20 [Step.forward (0 : Rat) effCLWGTpow],
              Candidate.mk 30 [Step.forward (0 : Rat) effVWGT]]).candidate_effects ↔
            (e ∈ (initState [effCLWGT, effCLWGTpow, effVWGT] (0 : Nat)).candidate_effects
              ∧ (e.parameter ≠ last.effect.parameter
                  ∨ e.covariate ≠ last.effect.covariate)))
        ∧ (∀ e, e ∈ (initState [effCLWGT, effCLWGTpow, effVWGT] (0 : Nat)).candidate_effects →
            e.parameter = last.effect.parameter →
            e.covariate = last.effect.covariate →
            e ∉ (SearchState.mk 2 [effVWGT]
              (Candidate.mk 10 [Step.forward (0 : Rat) effCLWGT])
              [Candidate.mk 0 [],
                Candidate.mk 10 [Step.forward (0 : Rat) effCLWGT],
                Candidate.mk 20 [Step.forward (0 : Rat) effCLWGTpow],
                Candidate.mk 30 [Step.forward (0 : Rat) effVWGT]]).candidate_effects)
        ∧ (∀ e, e ∈ (initState [effCLWGT, effCLWGTpow, effVWGT] (0 : Nat)).candidate_effects →
            (e.parameter ≠ last.effect.parameter
              ∨ e.covariate ≠ last.effect.covariate) →
            e ∈ (SearchState.mk 2 [effVWGT]
              (Candidate.mk 10 [Step.forward (0 : Rat) effCLWGT])
              [Candidate.mk 0 [],
                Candidate.mk 10 [Step.forward (0 : Rat) effCLWGT],
                Candidate.mk 20 [Step.forward (0 : Rat) effCLWGTpow],
                Candidate.mk 30 [Step.forward (0 : Rat) effVWGT]]).candidate_effects) :=
  ⟨by decide,
    covsearch_effect_pool_filter
      (show searchRound (fun _ _ _ => [10, 20, 30]) (fun _ ms => ms.headD 0) (0 : Rat)
            (initState [effCLWGT, effCLWGTpow, effVWGT] (0 : Nat))
          = .next (SearchState.mk 2 [effVWGT]
              (Candidate.mk 10 [Step.forward (0 : Rat) effCLWGT])
              [Candidate.mk 0 [],
                Candidate.mk 10 [Step.forward (0 : Rat) effCLWGT],
                Candidate.mk 20 [Step.forward (0 : Rat) effCLWGTpow],
                Candidate.mk 30 [Step.forward (0 : Rat) effVWGT]])
        from by decide)⟩

/-- A round on an empty pool hits the `if not candidate_effects: break` and
returns the accumulated candidates. -/
theorem searchRound_empty [DecidableEq M] (cw : Nat → M → List Effect → List M)
    (bom : M → List M → M) (p_forward : Rat) (s : SearchState M)
    (h : s.candidate_effects = []) :
    searchRound cw bom p_forward s = .done s.all := by
  unfold searchRound
  simp [h]

/-- When the winning model is fresh (not the model of any previously
collected candidate), a continuing round strictly shrinks the effect pool:
the winner comes from this round's `zip`, so its last step's effect is a
member of the pool and fails the keep-filter. -/
theorem searchRound_next_shrinks [DecidableEq M]
    {cw : Nat → M → List Effect → List M} {bom : M → List M → M}
    {p_forward : Rat} {s s' : SearchState M}
    (hfresh : bom s.best.model (cw s.step s.best.model s.candidate_effects)
        ∉ s.all.map Candidate.model)
    (h : searchRound cw bom p_forward s = .next s') :
    s'.candidate_effects.length < s.candidate_effects.length := by
  obtain ⟨best', last, hf, hl, hb, hne, hs'⟩ := searchRound_next_inv h
  have hnone : s.all.find?
      (fun c => decide (c.model
        = bom s.best.model (cw s.step s.best.model s.candidate_effects))) = none := by
    rw [List.find?_eq_none]
    intro c hc
    simp only [decide_eq_true_eq]
    intro hceq
    exact hfresh (List.mem_map.mpr ⟨c, hc, hceq⟩)
  have hf2 : (roundCandidates cw p_forward s).find?
      (fun c => decide (c.model
        = bom s.best.model (cw s.step s.best.model s.candidate_effects))) = some best' := by
    rw [List.find?_append, hnone] at hf
    simpa using hf
  have hmem : best' ∈ roundCandidates cw p_forward s := List.mem_of_find?_eq_some hf2
  obtain ⟨me, hmezip, hbe⟩ := List.mem_map.mp hmem
  have he2 : me.2 ∈ s.candidate_effects := (List.of_mem_zip hmezip).2
  have hsteps : best'.steps = s.best.steps ++ [Step.forward p_forward me.2] := by
    rw [← hbe]
  have hlast : last = Step.forward p_forward me.2 := by
    rw [hsteps, List.getLast?_concat] at hl
    exact (Option.some_injective _ hl).symm
  have hkeepfalse : keepEffect last.effect me.2 = false := by
    rw [hlast]
    simp [keepEffect, Step.effect]
  rw [hs']
  exact List.length_filter_lt_length_iff_exists.mpr
    ⟨me.2, he2, by simp [hkeepfalse]⟩

/-- Under the freshness discipline, rounds beyond the pool size never
change the bounded driver's result: the run stabilizes within
`t.candidate_effects.length` rounds. -/
theorem searchBounded_stable [DecidableEq M]
    {cw : Nat → M → List Effect → List M} {bom : M → List M → M}
    {p_forward : Rat} {s0 : SearchState M}
    (Hs : ∀ t t', Reaches cw bom p_forward s0 t →
      searchRound cw bom p_forward t = .next t' →
      t'.candidate_effects.length < t.candidate_effects.length) :
    ∀ k t, Reaches cw bom p_forward s0 t → t.candidate_effects.length ≤ k →
      ∀ n, t.candidate_effects.length ≤ n →
        searchBounded cw bom p_forward n t
          = searchBounded cw bom p_forward t.candidate_effects.length t := by
  intro k
  induction k with
  | zero =>
    intro t _ hk n _
    have hnil : t.candidate_effects = [] :=
      List.length_eq_zero.mp (Nat.le_zero.mp hk)
    have hr := searchRound_empty cw bom p_forward t hnil
    rw [hnil]
    cases n with
    | zero => rfl
    | succ m => simp [searchBounded, hr]
  | succ k ih =>
    intro t hre hk n hn
    rcases Nat.eq_zero_or_pos t.candidate_effects.length with hz | hpos
    · have hnil : t.candidate_effects = [] := List.length_eq_zero.mp hz
      have hr := searchRound_empty cw bom p_forward t hnil
      rw [hz]
      cases n with
      | zero => rfl
      | succ m => simp [searchBounded, hr]
    · obtain ⟨l, hl⟩ : ∃ l, t.candidate_effects.length = l + 1 :=
        ⟨t.candidate_effects.length - 1, (Nat.succ_pred_eq_of_pos hpos).symm⟩
      obtain ⟨m, hm⟩ : ∃ m, n = m + 1 :=
        ⟨n - 1, (Nat.succ_pred_eq_of_pos (Nat.lt_of_lt_of_le hpos hn)).symm⟩
      subst hm
      rw [hl]
      cases hr : searchRound cw bom p_forward t with
      | done r => simp [searchBounded, hr]
      | failed => simp [searchBounded, hr]
      | next t' =>
        have hlt : t'.candidate_effects.length < t.candidate_effects.length :=
          Hs t t' hre hr
        have hre' : Reaches cw bom p_forward s0 t' := Reaches.step hre hr
        have hkt' : t'.candidate_effects.length ≤ k := by omega
        have h1 : searchBounded cw bom p_forward m t'
            = searchBounded cw bom p_forward t'.candidate_effects.length t' :=
          ih t' hre' hkt' m (by omega)
        have h2 : searchBounded cw bom p_forward l t'
            = searchBounded cw bom p_forward t'.candidate_effects.length t' :=
          ih t' hre' hkt' l (by omega)
        simp only [searchBounded, hr]
        rw [h1, h2]

/-- Under the freshness discipline, the unbounded driver returns within
`t.candidate_effects.length` rounds. -/
theorem searchUnbounded_terminates [DecidableEq M]
    {cw : Nat → M → List Effect → List M} {bom : M → List M → M}
    {p_forward : Rat} {s0 : SearchState M}
    (Hs : ∀ t t', Reaches cw bom p_forward s0 t →
      searchRound cw bom p_forward t = .next t' →
      t'.candidate_effects.length < t.candidate_effects.length) :
    ∀ k t, Reaches cw bom p_forward s0 t → t.candidate_effects.length ≤ k →
      (searchUnbounded cw bom p_forward k t).isSome := by
  intro k
  induction k with
  | zero =>
    intro t _ hk
    have hnil : t.candidate_effects = [] :=
      List.length_eq_zero.mp (Nat.le_zero.mp hk)
    have hr := searchRound_empty cw bom p_forward t hnil
    simp [searchUnbounded, hr]
  | succ k ih =>
    intro t hre hk
    cases hr : searchRound cw bom p_forward t with
    | done r => simp [searchUnbounded, hr]
    | failed => simp [searchUnbounded, hr]
    | next t' =>
      have hlt := Hs t t' hre hr
      have hre' : Reaches cw bom p_forward s0 t' := Reaches.step hre hr
      have : (searchUnbounded cw bom p_forward k t').isSome :=
        ih t' hre' (by omega)
      simpa [searchUnbounded, hr] using this

/-- C1: for every finite effect pool and any cap `max_steps >= 0`,
`task_greedy_forward_search` terminates within `min(|pool|, max_steps)`
rounds — running it with the full cap gives the same result as running at
most that many rounds; whenever a round selects a winner (`next`
transition), the remaining effect pool strictly shrinks by at least one
element; and when `max_steps` is negative (the unbounded default), the
search still returns within `|pool|` rounds.  The freshness hypothesis
`Hf` expresses Python object identity: the model selected by
`lrt_best_of_many` is either the parent object or one of the freshly
created candidate models of this round. -/
theorem covsearch_termination [DecidableEq M]
    (cw : Nat → M → List Effect → List M) (bom : M → List M → M)
    (effects : List Effect) (p_forward : Rat) (model : M)
    (Hf : ∀ t, Reaches cw bom p_forward (initState effects model) t →
        bom t.best.model (cw t.step t.best.model t.candidate_effects) = t.best.model
        ∨ bom t.best.model (cw t.step t.best.model t.candidate_effects)
            ∉ t.all.map Candidate.model) :
    (∀ t t', Reaches cw bom p_forward (initState effects model) t →
        searchRound cw bom p_forward t = .next t' →
        t'.candidate_effects.length < t.candidate_effects.length)
    ∧ (∀ max_steps : Int, 0 ≤ max_steps →
        task_greedy_forward_search cw bom effects p_forward max_steps model 0
          = some (searchBounded cw bom p_forward
              (min effects.length max_steps.toNat) (initState effects model)))
    ∧ (∀ max_steps : Int, max_steps < 0 →
        (task_greedy_forward_search cw bom effects p_forward max_steps model
            effects.length).isSome) := by
  have Hs : ∀ t t', Reaches cw bom p_forward (initState effects model) t →
      searchRound cw bom p_forward t = .next t' →
      t'.candidate_effects.length < t.candidate_effects.length := by
    intro t t' hre hr
    rcases Hf t hre with heq | hfresh
    · obtain ⟨_, _, _, _, hb, _, _⟩ := searchRound_next_inv hr
      exact absurd heq hb
    · exact searchRound_next_shrinks hfresh hr
  refine ⟨Hs, ?_, ?_⟩
  · intro max_steps hms
    unfold task_greedy_forward_search
    rw [if_pos hms]
    rcases Nat.le_total max_steps.toNat effects.length with hle | hge
    · rw [Nat.min_eq_right hle]
    · have hlen : (initState effects model).candidate_effects.length
          = effects.length := rfl
      rw [Nat.min_eq_left hge]
      have h1 := searchBounded_stable Hs effects.length (initState effects model)
        (Reaches.refl _) (by rw [hlen]) max_steps.toNat (by rw [hlen]; exact hge)
      have h2 := searchBounded_stable Hs effects.length (initState effects model)
        (Reaches.refl _) (by rw [hlen]) effects.length (by rw [hlen])
      rw [h1, h2]
  · intro max_steps hms
    unfold task_greedy_forward_search
    rw [if_neg (by omega)]
    exact searchUnbounded_terminates Hs effects.length (initState effects model)
      (Reaches.refl _) (le_of_eq rfl)

theorem covsearch_termination_witness :
    (∀ t, Reaches (fun _ _ _ => [7, 8]) (fun p (_ : List Nat) => p) (0 : Rat)
        (initState [effCLWGT, effVWGT] (0 : Nat)) t →
      (fun p (_ : List Nat) => p) t.best.model
          ((fun _ _ _ => [7, 8]) t.step t.best.model t.candidate_effects)
        = t.best.model
      ∨ (fun p (_ : List Nat) => p) t.best.model
          ((fun _ _ _ => [7, 8]) t.step t.best.model t.candidate_effects)
        ∉ t.all.map Candidate.model)
    ∧ task_greedy_forward_search (fun _ _ _ => [7, 8]) (fun p _ => p)
        [effCLWGT, effVWGT] (0 : Rat) 5 (0 : Nat) 0
      = some (searchBounded (fun _ _ _ => [7, 8]) (fun p _ => p) (0 : Rat)
          (min ([effCLWGT, effVWGT].length) ((5 : Int).toNat))
          (initState [effCLWGT, effVWGT] (0 : Nat))) :=
  ⟨fun _ _ => Or.inl rfl,
    (covsearch_termination (fun _ _ _ => [7, 8]) (fun p _ => p)
      [effCLWGT, effVWGT] (0 : Rat) (0 : Nat)
      (fun _ _ => Or.inl rfl)).2.1 5 (by decide)⟩

/-- Provenance properties of a candidate list, relative to model-name
oracles: `nm` abstracts `model.name` and `pn` abstracts
`model.parent_model` (the attribute set by `task_add_covariate_effect`).
`start` is the zero-step starting candidate. -/
def ForwardProvenance (nm pn : M → String) (start : Candidate M)
    (r : List (Candidate M)) : Prop :=
  start.steps = []
  ∧ (∀ c ∈ r, c.steps = [] → c = start)
  ∧ (∀ i, (hi : i < r.length) → r[i].steps ≠ [] →
      ∃ j, ∃ (hj : j < r.length), j < i ∧ nm (r[j].model) = pn (r[i].model))
  ∧ (∀ c ∈ r, ∀ st ∈ c.steps, st.is_backward = false)

/-- Loop invariant: the best candidate is recorded in the history and the
history has the provenance properties. -/
def Inv4 (nm pn : M → String) (start : Candidate M) (s : SearchState M) : Prop :=
  s.best ∈ s.all ∧ ForwardProvenance nm pn start s.all

theorem forwardProvenance_append [DecidableEq M] {nm pn : M → String}
    {start : Candidate M} {cw : Nat → M → List Effect → List M}
    {p_forward : Rat} {s : SearchState M}
    (hbest : s.best ∈ s.all)
    (hfp : ForwardProvenance nm pn start s.all)
    (Hpn : ∀ m ∈ cw s.step s.best.model s.candidate_effects, pn m = nm s.best.model) :
    ForwardProvenance nm pn start (s.all ++ roundCandidates cw p_forward s) := by
  obtain ⟨hstart, hzero, hres, hfwd⟩ := hfp
  refine ⟨hstart, ?_, ?_, ?_⟩
  · intro c hc hcs
    rcases List.mem_append.mp hc with hcl | hcr
    · exact hzero c hcl hcs
    · obtain ⟨me, _, hbe⟩ := List.mem_map.mp hcr
      rw [← hbe] at hcs
      simp at hcs
  · intro i hi hne
    by_cases hil : i < s.all.length
    · have hgi : (s.all ++ roundCandidates cw p_forward s)[i] = s.all[i] :=
        List.getElem_append_left hil
      rw [hgi] at hne
      obtain ⟨j, hj, hji, hnmpn⟩ := hres i hil hne
      refine ⟨j, by simp; omega, hji, ?_⟩
      rw [List.getElem_append_left hj, hgi]
      exact hnmpn
    · push_neg at hil
      have hmemnew : (s.all ++ roundCandidates cw p_forward s)[i]
          ∈ roundCandidates cw p_forward s := by
        rw [List.getElem_append_right hil]
        exact List.getElem_mem _
      obtain ⟨me, hz, hbe⟩ := List.mem_map.mp hmemnew
      obtain ⟨j, hjl, hjget⟩ := List.mem_iff_getElem.mp hbest
      refine ⟨j, by simp; omega, by omega, ?_⟩
      rw [List.getElem_append_left hjl, hjget, ← hbe]
      exact (Hpn me.1 (List.of_mem_zip hz).1).symm
  · intro c hc st hst
    rcases List.mem_append.mp hc with hcl | hcr
    · exact hfwd c hcl st hst
    · obtain ⟨me, _, hbe⟩ := List.mem_map.mp hcr
      rw [← hbe] at hst
      rcases List.mem_append.mp hst with hstl | hstr
      · exact hfwd s.best hbest st hstl
      · rw [List.mem_singleton.mp hstr]
        rfl

theorem inv4_round_next [DecidableEq M] {nm pn : M → String} {start : Candidate M}
    {cw : Nat → M → List Effect → List M} {bom : M → List M → M}
    {p_forward : Rat} {s s' : SearchState M}
    (h : searchRound cw bom p_forward s = .next s')
    (hinv : Inv4 nm pn start s)
    (Hpn : ∀ m ∈ cw s.step s.best.model s.candidate_effects, pn m = nm s.best.model) :
    Inv4 nm pn start s' := by
  obtain ⟨best', last, hf, hl, hb, hne, hs'⟩ := searchRound_next_inv h
  rw [hs']
  exact ⟨List.mem_of_find?_eq_some hf, forwardProvenance_append hinv.1 hinv.2 Hpn⟩

theorem inv4_round_done [DecidableEq M] {nm pn : M → String} {start : Candidate M}
    {cw : Nat → M → List Effect → List M} {bom : M → List M → M}
    {p_forward : Rat} {s : SearchState M} {r : List (Candidate M)}
    (h : searchRound cw bom p_forward s = .done r)
    (hinv : Inv4 nm pn start s)
    (Hpn : ∀ m ∈ cw s.step s.best.model s.candidate_effects, pn m = nm s.best.model) :
    ForwardProvenance nm pn start r := by
  rcases searchRound_done_inv h with ⟨_, hr⟩ | ⟨_, _, hr⟩
  · rw [hr]; exact hinv.2
  · rw [hr]; exact forwardProvenance_append hinv.1 hinv.2 Hpn

theorem searchBounded_forwardProvenance [DecidableEq M] {nm pn : M → String}
    {start : Candidate M} {cw : Nat → M → List Effect → List M}
    {bom : M → List M → M} {p_forward : Rat} {s0 : SearchState M}
    (Hpn : ∀ t, Reaches cw bom p_forward s0 t →
      ∀ m ∈ cw t.step t.best.model t.candidate_effects, pn m = nm t.best.model) :
    ∀ n t r, Reaches cw bom p_forward s0 t → Inv4 nm pn start t →
      searchBounded cw bom p_forward n t = .ok r →
      ForwardProvenance nm pn start r := by
  intro n
  induction n with
  | zero =>
    intro t r _ hinv h
    simp only [searchBounded] at h
    cases h
    exact hinv.2
  | succ n ih =>
    intro t r hre hinv h
    simp only [searchBounded] at h
    cases hr : searchRound cw bom p_forward t with
    | done rr =>
      rw [hr] at h
      cases h
      exact inv4_round_done hr hinv (Hpn t hre)
    | failed => rw [hr] at h; exact absurd h (by simp)
    | next t' =>
      rw [hr] at h
      exact ih t' r (Reaches.step hre hr) (inv4_round_next hr hinv (Hpn t hre)) h

theorem searchUnbounded_forwardProvenance [DecidableEq M] {nm pn : M → String}
    {start : Candidate M} {cw : Nat → M → List Effect → List M}
    {bom : M → List M → M} {p_forward : Rat} {s0 : SearchState M}
    (Hpn : ∀ t, Reaches cw bom p_forward s0 t →
      ∀ m ∈ cw t.step t.best.model t.candidate_effects, pn m = nm t.best.model) :
    ∀ n t r, Reaches cw bom p_forward s0 t → Inv4 nm pn start t →
      searchUnbounded cw bom p_forward n t = some (.ok r) →
      ForwardProvenance nm pn start r := by
  intro n
  induction n with
  | zero =>
    intro t r hre hinv h
    simp only [searchUnbounded] at h
    cases hr : searchRound cw bom p_forward t with
    | done rr =>
      rw [hr] at h
      cases h
      exact inv4_round_done hr hinv (Hpn t hre)
    | failed => rw [hr] at h; simp at h
    | next t' => rw [hr] at h; exact absurd h (by simp)
  | succ n ih =>
    intro t r hre hinv h
    simp only [searchUnbounded] at h
    cases hr : searchRound cw bom p_forward t with
    | done rr =>
      rw [hr] at h
      cases h
      exact inv4_round_done hr hinv (Hpn t hre)
    | failed => rw [hr] at h; simp at h
    | next t' =>
      rw [hr] at h
      exact ih t' r (Reaches.step hre hr) (inv4_round_next hr hinv (Hpn t hre)) h

theorem inv4_init [DecidableEq M] (nm pn : M → String) (effects : List Effect)
    (model : M) :
    Inv4 nm pn (Candidate.mk model []) (initState effects model) := by
  refine ⟨by simp [initState], rfl, ?_, ?_, ?_⟩
  · intro c hc _
    simpa [initState] using hc
  · intro i hi hne
    have : i = 0 := by simpa [initState] using hi
    subst this
    exact absurd rfl hne
  · intro c hc st hst
    have : c = Candidate.mk model [] := by simpa [initState] using hc
    subst this
    simp at hst

/-- C4 (amended): in any completed run of `task_greedy_forward_search`, a
returned candidate's steps tuple is empty exactly when it is the unmodified
starting candidate; every candidate with non-empty steps has a
`parent_model` name (`pn`) resolvable to the model name (`nm`) of a
previously created candidate in the same list; and in this forward-only
algorithm every step of every candidate has `is_backward = false` (a
candidate created in round `r` carries `r` forward steps, so "exactly one"
holds only for first-round candidates).  `Hpn` states what
`task_add_covariate_effect` does: each new model's `parent_model` is the
round parent's name. -/
theorem covsearch_candidate_provenance [DecidableEq M]
    (nm pn : M → String) (cw : Nat → M → List Effect → List M)
    (bom : M → List M → M) (effects : List Effect) (p_forward : Rat)
    (max_steps : Int) (model : M) (fuel : Nat)
    (Hpn : ∀ t, Reaches cw bom p_forward (initState effects model) t →
        ∀ m ∈ cw t.step t.best.model t.candidate_effects, pn m = nm t.best.model)
    (r : List (Candidate M))
    (hrun : task_greedy_forward_search cw bom effects p_forward max_steps model fuel
      = some (.ok r)) :
    (∀ c ∈ r, (c.steps = [] ↔ c = Candidate.mk model []))
    ∧ (∀ i, (hi : i < r.length) → r[i].steps ≠ [] →
        ∃ j, ∃ (hj : j < r.length), j < i
          ∧ nm (r[j].model) = pn (r[i].model))
    ∧ (∀ c ∈ r, ∀ st ∈ c.steps, st.is_backward = false) := by
  have hfp : ForwardProvenance nm pn (Candidate.mk model []) r := by
    unfold task_greedy_forward_search at hrun
    by_cases hms : 0 ≤ max_steps
    · rw [if_pos hms] at hrun
      exact searchBounded_forwardProvenance Hpn max_steps.toNat _ r (Reaches.refl _)
        (inv4_init nm pn effects model) (Option.some.inj hrun)
    · rw [if_neg hms] at hrun
      exact searchUnbounded_forwardProvenance Hpn fuel _ r (Reaches.refl _)
        (inv4_init nm pn effects model) hrun
  obtain ⟨hstart, hzero, hres, hfwd⟩ := hfp
  refine ⟨?_, hres, hfwd⟩
  intro c hc
  exact ⟨hzero c hc, fun hceq => by rw [hceq]⟩

/-- Deterministic concrete engine for witness runs: round models are
`parent * 100 + i + 1`. -/
def cwDemo : Nat → Nat → List Effect → List Nat :=
  fun _ parent es => (List.range es.length).map (fun i => parent * 100 + i + 1)

/-- Concrete ranking for witness runs: pick the first new candidate model. -/
def bomDemo : Nat → List Nat → Nat := fun parent ms => ms.headD parent

/-- Two-effect pool on different (parameter, covariate) pairs. -/
def demoEffects : List Effect := [effCLWGT, effVWGT]

/-- The candidate history of the two-round demo run. -/
def demoRun : List (Candidate Nat) :=
  [Candidate.mk 0 [],
    Candidate.mk 1 [Step.forward 0 effCLWGT],
    Candidate.mk 2 [Step.forward 0 effVWGT],
    Candidate.mk 101 [Step.forward 0 effCLWGT, Step.forward 0 effVWGT]]

/-- C4 counterexample: running the forward search for two rounds returns a
candidate (`Candidate 101`) whose steps tuple has two entries, both with
`is_backward = false` — refuting "exactly one of its steps has
`is_backward == False`" for candidates created after the first round. -/
theorem covsearch_exactly_one_forward_false :
    task_greedy_forward_search cwDemo bomDemo demoEffects 0 5 0 0
      = some (.ok demoRun)
    ∧ ∃ c ∈ demoRun, c.steps ≠ []
        ∧ c.steps.countP (fun st => !st.is_backward) ≠ 1 := by decide

/-- Model name oracle of the demo runs (`model.name`). -/
def nmDemo : Nat → String := fun m => toString m

/-- Parent name oracle of the demo runs (`model.parent_model`). -/
def pnDemo : Nat → String := fun m => if m = 0 then "orig" else toString (m / 100)

/-- The state after round 1 of the demo run. -/
def demoS1 : SearchState Nat :=
  SearchState.mk 2 [effVWGT] (Candidate.mk 1 [Step.forward 0 effCLWGT])
    [Candidate.mk 0 [], Candidate.mk 1 [Step.forward 0 effCLWGT],
      Candidate.mk 2 [Step.forward 0 effVWGT]]

/-- The state after round 2 of the demo run. -/
def demoS2 : SearchState Nat :=
  SearchState.mk 3 []
    (Candidate.mk 101 [Step.forward 0 effCLWGT, Step.forward 0 effVWGT]) demoRun

theorem reachDemo_enum : ∀ t,
    Reaches cwDemo bomDemo 0 (initState demoEffects 0) t →
    t = initState demoEffects 0 ∨ t = demoS1 ∨ t = demoS2 := by
  intro t h
  induction h with
  | refl => exact Or.inl rfl
  | step hre hr ih =>
    rcases ih with h0 | h0 | h0 <;> subst h0
    · have hcomp : searchRound cwDemo bomDemo 0 (initState demoEffects 0)
          = .next demoS1 := by decide
      rw [hcomp] at hr
      exact Or.inr (Or.inl (RoundResult.next.inj hr).symm)
    · have hcomp : searchRound cwDemo bomDemo 0 demoS1 = .next demoS2 := by decide
      rw [hcomp] at hr
      exact Or.inr (Or.inr (RoundResult.next.inj hr).symm)
    · have hcomp : searchRound cwDemo bomDemo 0 demoS2 = .done demoRun := by decide
      rw [hcomp] at hr
      exact absurd hr (by simp)

theorem hpnDemo : ∀ t, Reaches cwDemo bomDemo 0 (initState demoEffects 0) t →
    ∀ m ∈ cwDemo t.step t.best.model t.candidate_effects,
      pnDemo m = nmDemo t.best.model := by
  intro t hre m hm
  rcases reachDemo_enum t hre with h | h | h <;> subst h
  · have hcw : cwDemo (initState demoEffects (0 : Nat)).step
        (initState demoEffects (0 : Nat)).best.model
        (initState demoEffects (0 : Nat)).candidate_effects = [1, 2] := by decide
    rw [hcw] at hm
    fin_cases hm <;> decide
  · have hcw : cwDemo demoS1.step demoS1.best.model demoS1.candidate_effects
        = [101] := by decide
    rw [hcw] at hm
    fin_cases hm
    decide
  · have hcw : cwDemo demoS2.step demoS2.best.model demoS2.candidate_effects
        = [] := by decide
    rw [hcw] at hm
    simp at hm

theorem covsearch_candidate_provenance_witness :
    task_greedy_forward_search cwDemo bomDemo demoEffects 0 5 0 0
      = some (.ok demoRun)
    ∧ ((∀ c ∈ demoRun, (c.steps = [] ↔ c = Candidate.mk 0 []))
      ∧ (∀ i, (hi : i < demoRun.length) → demoRun[i].steps ≠ [] →
          ∃ j, ∃ (hj : j < demoRun.length), j < i
            ∧ nmDemo (demoRun[j].model) = pnDemo (demoRun[i].model))
      ∧ (∀ c ∈ demoRun, ∀ st ∈ c.steps, st.is_backward = false)) :=
  ⟨by decide,
    covsearch_candidate_provenance nmDemo pnDemo cwDemo bomDemo demoEffects 0 5 0 0
      hpnDemo demoRun (by decide)⟩

/-- Modelled from the spec: the `Task` class of `pharmpy.tools.workflows`
is not among the sources (only `tests/tools/test_workflows.py` and callers
are).  Per §3 a Task is an immutable named unit of work compared by object
identity, safe to appear in multiple graphs; `tid` stands for the Python
object identity, `name` for the human-readable name. -/
structure Task where
  tid : Nat
  name : String
deriving DecidableEq

/-- Modelled from the spec: `Workflow` (§3/§4.1) owns a DAG whose nodes are
Task references (kept in insertion order) and whose edges are directed
predecessor/successor pairs. -/
structure Workflow where
  nodes : List Task
  edges : List (Task × Task)
deriving DecidableEq

/-- Modelled from the spec: `Workflow.add_tasks(tasks)` inserts
previously-unattached task nodes (§4.1). -/
def Workflow.add_tasks (w : Workflow) (ts : List Task) : Workflow :=
  Workflow.mk (w.nodes ++ ts) w.edges

/-- Out-degree of a node: number of edges leaving `t`. -/
def Workflow.outDegree (w : Workflow) (t : Task) : Nat :=
  (w.edges.filter (fun e => decide (e.1 = t))).length

/-- In-degree of a node: number of edges entering `t`. -/
def Workflow.inDegree (w : Workflow) (t : Task) : Nat :=
  (w.edges.filter (fun e => decide (e.2 = t))).length

/-- Modelled from the spec: `Workflow.get_leaf_tasks()` returns the nodes
with out-degree zero, in insertion order (§4.1). -/
def Workflow.get_leaf_tasks (w : Workflow) : List Task :=
  w.nodes.filter (fun t => decide (w.outDegree t = 0))

/-- Source tasks: nodes with in-degree zero (the merge target's entry
points in §4.1). -/
def Workflow.source_tasks (w : Workflow) : List Task :=
  w.nodes.filter (fun t => decide (w.inDegree t = 0))

/-- The edge relation of an edge list. -/
def EdgeIn (edges : List (Task × Task)) (a b : Task) : Prop := (a, b) ∈ edges

instance (edges : List (Task × Task)) (a b : Task) : Decidable (EdgeIn edges a b) :=
  inferInstanceAs (Decidable ((a, b) ∈ edges))

/-- The edge relation of a workflow graph. -/
def Edge (w : Workflow) (a b : Task) : Prop := EdgeIn w.edges a b

instance (w : Workflow) (a b : Task) : Decidable (Edge w a b) :=
  inferInstanceAs (Decidable ((a, b) ∈ w.edges))

/-- Direct successors of `v` in an edge list. -/
def succsOf (edges : List (Task × Task)) (v : Task) : List Task :=
  (edges.filter (fun e => decide (e.1 = v))).map Prod.snd

theorem mem_succsOf {edges : List (Task × Task)} {v x : Task} :
    x ∈ succsOf edges v ↔ (v, x) ∈ edges := by
  unfold succsOf
  constructor
  · intro h
    obtain ⟨e, he, hex⟩ := List.mem_map.mp h
    obtain ⟨hmem, hv⟩ := List.mem_filter.mp he
    have hv' : e.1 = v := of_decide_eq_true hv
    have : (v, x) = e := by
      cases e
      simp at hv' hex ⊢
      exact ⟨hv'.symm, hex.symm⟩
    rw [this]
    exact hmem
  · intro h
    exact List.mem_map.mpr ⟨(v, x), List.mem_filter.mpr ⟨h, by simp⟩, rfl⟩

/-- One expansion step of the forward-reachability closure. -/
def stepCl (edges : List (Task × Task)) (S : Finset Task) : Finset Task :=
  S ∪ ((edges.filter (fun e => decide (e.1 ∈ S))).map Prod.snd).toFinset

theorem mem_stepCl {edges : List (Task × Task)} {S : Finset Task} {x : Task} :
    x ∈ stepCl edges S ↔ x ∈ S ∨ ∃ a ∈ S, (a, x) ∈ edges := by
  unfold stepCl
  rw [Finset.mem_union]
  constructor
  · rintro (h | h)
    · exact Or.inl h
    · right
      obtain ⟨e, he, hex⟩ := List.mem_map.mp (List.mem_toFinset.mp h)
      obtain ⟨hmem, ha⟩ := List.mem_filter.mp he
      refine ⟨e.1, of_decide_eq_true ha, ?_⟩
      rw [show (e.1, x) = e from by cases e; simp at hex ⊢; exact hex.symm]
      exact hmem
  · rintro (h | ⟨a, haS, hedge⟩)
    · exact Or.inl h
    · right
      exact List.mem_toFinset.mpr
        (List.mem_map.mpr ⟨(a, x), List.mem_filter.mpr ⟨hedge, by simpa⟩, rfl⟩)

theorem subset_stepCl (edges : List (Task × Task)) (S : Finset Task) :
    S ⊆ stepCl edges S :=
  Finset.subset_union_left

theorem stepCl_mono {edges : List (Task × Task)} {S T : Finset Task}
    (h : S ⊆ T) : stepCl edges S ⊆ stepCl edges T := by
  intro x hx
  rcases mem_stepCl.mp hx with hx | ⟨a, ha, hedge⟩
  · exact mem_stepCl.mpr (Or.inl (h hx))
  · exact mem_stepCl.mpr (Or.inr ⟨a, h ha, hedge⟩)

/-- `n`-fold closure expansion. -/
def closN (edges : List (Task × Task)) : Nat → Finset Task → Finset Task
  | 0, S => S
  | Nat.succ n, S => stepCl edges (closN edges n S)

theorem closN_succ_subset (edges : List (Task × Task)) (n : Nat) (S : Finset Task) :
    closN edges n S ⊆ closN edges (n + 1) S := by
  induction n with
  | zero => exact subset_stepCl edges S
  | succ n ih => exact stepCl_mono ih

theorem closN_le_le {edges : List (Task × Task)} {S : Finset Task} {m n : Nat}
    (h : m ≤ n) : closN edges m S ⊆ closN edges n S := by
  induction n with
  | zero =>
    rw [Nat.le_zero.mp h]
  | succ n ih =>
    rcases Nat.lt_or_ge m (n + 1) with hlt | hge
    · exact Finset.Subset.trans (ih (by omega)) (closN_succ_subset edges n S)
    · rw [Nat.le_antisymm h hge]

theorem closN_subset_univ {edges : List (Task × Task)} {S U : Finset Task}
    (hS : S ⊆ U) (hE : ∀ e ∈ edges, e.2 ∈ U) :
    ∀ n, closN edges n S ⊆ U := by
  intro n
  induction n with
  | zero => exact hS
  | succ n ih =>
    intro x hx
    rcases mem_stepCl.mp hx with hx | ⟨a, _, hedge⟩
    · exact ih hx
    · exact hE (a, x) hedge

theorem closN_add (edges : List (Task × Task)) (a b : Nat) (S : Finset Task) :
    closN edges (a + b) S = closN edges a (closN edges b S) := by
  induction a with
  | zero => simp [closN]
  | succ a ih =>
    have h1 : a + 1 + b = (a + b) + 1 := by omega
    rw [h1]
    show stepCl edges (closN edges (a + b) S) = closN edges (a + 1) (closN edges b S)
    rw [ih]
    rfl

theorem closN_fixpoint {edges : List (Task × Task)} {T : Finset Task}
    (h : stepCl edges T = T) : ∀ k, closN edges k T = T := by
  intro k
  induction k with
  | zero => rfl
  | succ k ih =>
    show stepCl edges (closN edges k T) = T
    rw [ih, h]

/-- The fuel bound for the closure: the size of the universe the closure
lives in. -/
def clBound (edges : List (Task × Task)) (S : Finset Task) : Nat :=
  (S ∪ (edges.map Prod.snd).toFinset).card

theorem closN_subset_clUniv (edges : List (Task × Task)) (S : Finset Task)
    (n : Nat) : closN edges n S ⊆ S ∪ (edges.map Prod.snd).toFinset :=
  closN_subset_univ Finset.subset_union_left
    (fun e he => Finset.mem_union_right _
      (List.mem_toFinset.mpr (List.mem_map.mpr ⟨e, he, rfl⟩))) n

theorem exists_closN_fixpoint (edges : List (Task × Task)) (S : Finset Task) :
    ∃ j ≤ clBound edges S,
      stepCl edges (closN edges j S) = closN edges j S := by
  by_contra hc
  push_neg at hc
  have grow : ∀ j, j ≤ clBound edges S + 1 →
      S.card + j ≤ (closN edges j S).card := by
    intro j
    induction j with
    | zero => intro _; simp [closN]
    | succ j ih =>
      intro hj
      have hne := hc j (by omega)
      have hss : closN edges j S ⊂ closN edges (j + 1) S :=
        Finset.ssubset_iff_subset_ne.mpr
          ⟨closN_succ_subset edges j S, fun heq => hne heq.symm⟩
      have := Finset.card_lt_card hss
      have := ih (by omega)
      omega
  have hub : (closN edges (clBound edges S + 1) S).card ≤ clBound edges S :=
    Finset.card_le_card (closN_subset_clUniv edges S (clBound edges S + 1))
  have := grow (clBound edges S + 1) (by omega)
  omega

theorem closN_le_stab (edges : List (Task × Task)) (S : Finset Task) :
    ∀ k, closN edges k S ⊆ closN edges (clBound edges S) S := by
  obtain ⟨j, hj, hfix⟩ := exists_closN_fixpoint edges S
  intro k
  rcases Nat.le_total k (clBound edges S) with hk | hk
  · exact closN_le_le hk
  · have hkj : k = (k - j) + j := by omega
    rw [hkj, closN_add, closN_fixpoint hfix]
    exact closN_le_le hj

theorem closN_sound {edges : List (Task × Task)} {v : Task} :
    ∀ n x, x ∈ closN edges n ((succsOf edges v).toFinset) →
      Relation.TransGen (EdgeIn edges) v x := by
  intro n
  induction n with
  | zero =>
    intro x hx
    exact Relation.TransGen.single (mem_succsOf.mp (List.mem_toFinset.mp hx))
  | succ n ih =>
    intro x hx
    rcases mem_stepCl.mp hx with hx | ⟨a, ha, hedge⟩
    · exact ih x hx
    · exact Relation.TransGen.tail (ih a ha) hedge

theorem closN_complete {edges : List (Task × Task)} {v b : Task}
    (h : Relation.TransGen (EdgeIn edges) v b) :
    b ∈ closN edges (clBound edges ((succsOf edges v).toFinset))
      ((succsOf edges v).toFinset) := by
  induction h with
  | single hedge =>
    exact closN_le_stab edges _ 0 (List.mem_toFinset.mpr (mem_succsOf.mpr hedge))
  | tail htrans hedge ih =>
    refine closN_le_stab edges _ (clBound edges ((succsOf edges v).toFinset) + 1) ?_
    show _ ∈ stepCl edges (closN edges _ _)
    exact mem_stepCl.mpr (Or.inr ⟨_, ih, hedge⟩)

theorem transGen_exists_first {r : Task → Task → Prop} {v b : Task}
    (h : Relation.TransGen r v b) : ∃ c, r v c := by
  induction h using Relation.TransGen.head_induction_on with
  | base hedge => exact ⟨_, hedge⟩
  | ih hedge _ _ => exact ⟨_, hedge⟩

/-- Decidable cycle check: some edge source can reach itself. -/
def hasCycle (w : Workflow) : Bool :=
  w.edges.any (fun e =>
    decide (e.1 ∈ closN w.edges
      (clBound w.edges ((succsOf w.edges e.1).toFinset))
      ((succsOf w.edges e.1).toFinset)))

theorem hasCycle_iff (w : Workflow) :
    hasCycle w = true ↔ ∃ v, Relation.TransGen (EdgeIn w.edges) v v := by
  constructor
  · intro h
    obtain ⟨e, he, hp⟩ := List.any_eq_true.mp h
    exact ⟨e.1, closN_sound _ _ (of_decide_eq_true hp)⟩
  · rintro ⟨v, hv⟩
    obtain ⟨c, hc⟩ := transGen_exists_first hv
    exact List.any_eq_true.mpr
      ⟨(v, c), hc, decide_eq_true (closN_complete hv)⟩

/-- Modelled from the spec: `Workflow.connect_tasks(mapping)` (§4.1) adds a
directed edge for every predecessor → successor(s) pair; it raises a
`ValueError` when a predecessor equals one of its successors (self-loop),
and raises when the resulting graph contains a cycle. -/
def Workflow.connect_tasks (w : Workflow) (mapping : List (Task × List Task)) :
    Except String Workflow :=
  let newEdges := mapping.flatMap (fun ps => ps.2.map (fun s => (ps.1, s)))
  if newEdges.any (fun e => decide (e.1 = e.2)) then
    .error "ValueError: task cannot be connected to itself"
  else
    let w' := Workflow.mk w.nodes (w.edges ++ newEdges)
    if hasCycle w' then .error "graph contains a cycle" else .ok w'

/-- Modelled from the spec and `tests/tools/test_workflows.py`:
`Workflow.merge_workflows(other, connect)` merges the other workflow's
nodes and edges; with `connect=True` it additionally wires every current
leaf task of `self` to every source task of `other`, with `connect=False`
it adds no edge. -/
def Workflow.merge_workflows (w other : Workflow) (connect : Bool) : Workflow :=
  Workflow.mk (w.nodes ++ other.nodes)
    (w.edges ++ other.edges ++
      (if connect then
        w.get_leaf_tasks.flatMap (fun l => other.source_tasks.map (fun s => (l, s)))
      else []))

/-- Modelled from the spec: `Workflow.insert_workflow(other, predecessors)`
(§4.1) merges `other`'s nodes and edges into `self` and wires every source
node of `other` to follow every predecessor, where the predecessors
"default to `self`'s current leaf tasks when connecting sequentially" —
the behaviour the no-argument call-sites (`ensure_model_is_fitted`,
`wf_effects_addition`) rely on so that fit tasks receive their model
inputs.  Parallel (disjoint) composition is the explicit
empty-predecessors case, which adds no edges. -/
def Workflow.insert_workflow (w other : Workflow)
    (predecessors : Option (List Task)) : Workflow :=
  let ps := match predecessors with
    | none => w.get_leaf_tasks
    | some given => given
  Workflow.mk (w.nodes ++ other.nodes)
    (w.edges ++ other.edges ++
      ps.flatMap (fun p => other.source_tasks.map (fun s => (p, s))))

/-- Fold a sequence of `connect_tasks` calls over a workflow; a call that
raises leaves the workflow as it was. -/
def applyConnectCalls (w : Workflow) (calls : List (List (Task × List Task))) :
    Workflow :=
  calls.foldl (fun acc m =>
    match acc.connect_tasks m with
    | .ok w' => w'
    | .error _ => acc) w

theorem connect_tasks_ok_inv {w w' : Workflow}
    {mapping : List (Task × List Task)}
    (h : w.connect_tasks mapping = .ok w') :
    w'.nodes = w.nodes
    ∧ w'.edges = w.edges
        ++ mapping.flatMap (fun ps => ps.2.map (fun s => (ps.1, s)))
    ∧ hasCycle w' = false := by
  simp only [Workflow.connect_tasks] at h
  split at h
  · exact absurd h (by simp)
  · split at h
    · exact absurd h (by simp)
    · rename_i hcyc
      cases h
      exact ⟨rfl, rfl, by simpa using hcyc⟩

theorem connect_tasks_ok_acyclic {w w' : Workflow}
    {mapping : List (Task × List Task)}
    (h : w.connect_tasks mapping = .ok w') :
    ¬ ∃ v, Relation.TransGen (Edge w') v v := by
  intro hcy
  have := (hasCycle_iff w').mpr hcy
  rw [(connect_tasks_ok_inv h).2.2] at this
  exact Bool.false_ne_true this

/-- C7: `connect_tasks` raises a `ValueError` on any self-loop entry of the
mapping; a successful call merely appends the requested edges and the
resulting graph has no directed cycle; whenever the requested edges would
create a directed cycle the call raises; and after any sequence of
`connect_tasks` calls starting from an acyclic workflow (a raising call
leaving the workflow unchanged), the graph is still acyclic — so a call
that raised leaves no self-loop or cycle in the graph. -/
theorem workflow_connect_tasks_acyclic (w : Workflow)
    (mapping : List (Task × List Task)) :
    (∀ pair ∈ mapping, ∀ s ∈ pair.2, pair.1 = s →
        ∃ msg, w.connect_tasks mapping = .error msg)
    ∧ (∀ w', w.connect_tasks mapping = .ok w' →
        w'.nodes = w.nodes
        ∧ w'.edges = w.edges
            ++ mapping.flatMap (fun ps => ps.2.map (fun s => (ps.1, s)))
        ∧ ¬ ∃ v, Relation.TransGen (Edge w') v v)
    ∧ ((∃ v, Relation.TransGen
          (EdgeIn (w.edges
            ++ mapping.flatMap (fun ps => ps.2.map (fun s => (ps.1, s))))) v v) →
        ∃ msg, w.connect_tasks mapping = .error msg)
    ∧ (∀ calls, (¬ ∃ v, Relation.TransGen (Edge w) v v) →
        ¬ ∃ v, Relation.TransGen (Edge (applyConnectCalls w calls)) v v) := by
  refine ⟨?_, ?_, ?_, ?_⟩
  · intro pair hpair s hs hps
    have hany : (mapping.flatMap (fun ps => ps.2.map (fun t => (ps.1, t)))).any
        (fun e => decide (e.1 = e.2)) = true := by
      refine List.any_eq_true.mpr ⟨(pair.1, s), ?_, by simpa using hps⟩
      exact List.mem_flatMap.mpr ⟨pair, hpair, List.mem_map.mpr ⟨s, hs, rfl⟩⟩
    refine ⟨"ValueError: task cannot be connected to itself", ?_⟩
    unfold Workflow.connect_tasks
    simp only [hany, if_true]
  · intro w' h
    exact ⟨(connect_tasks_ok_inv h).1, (connect_tasks_ok_inv h).2.1,
      connect_tasks_ok_acyclic h⟩
  · intro hcy
    unfold Workflow.connect_tasks
    by_cases hany : (mapping.flatMap (fun ps => ps.2.map (fun t => (ps.1, t)))).any
        (fun e => decide (e.1 = e.2)) = true
    · exact ⟨"ValueError: task cannot be connected to itself",
        by simp only [hany, if_true]⟩
    · have hcyc : hasCycle (Workflow.mk w.nodes
          (w.edges ++ mapping.flatMap (fun ps => ps.2.map (fun s => (ps.1, s)))))
          = true :=
        (hasCycle_iff _).mpr hcy
      refine ⟨"graph contains a cycle", ?_⟩
      simp only [Bool.not_eq_true] at hany
      simp only [hany, Bool.false_eq_true, if_false, hcyc, if_true]
  · intro calls
    induction calls generalizing w with
    | nil => intro h; exact h
    | cons m calls ih =>
      intro h
      show ¬ ∃ v, Relation.TransGen
        (Edge (applyConnectCalls
          (match w.connect_tasks m with
            | .ok w' => w'
            | .error _ => w) calls)) v v
      cases hc : w.connect_tasks m with
      | ok w' => exact ih w' (connect_tasks_ok_acyclic hc)
      | error msg => exact ih w h

/-- C8: `get_leaf_tasks` returns exactly the nodes with out-degree zero,
as a sublist of the node list (insertion order); and after connecting a
predecessor `P` to successors `A` and `B`, `P` is no longer a leaf while
`A` and `B` are leaves as long as they have no outgoing edges. -/
theorem workflow_get_leaf_tasks_spec (w : Workflow) :
    (∀ t, t ∈ w.get_leaf_tasks ↔ (t ∈ w.nodes ∧ w.outDegree t = 0))
    ∧ List.Sublist w.get_leaf_tasks w.nodes
    ∧ (∀ P A B w', w.connect_tasks [(P, [A, B])] = .ok w' →
        P ∉ w'.get_leaf_tasks
        ∧ (A ∈ w'.nodes → w'.outDegree A = 0 → A ∈ w'.get_leaf_tasks)
        ∧ (B ∈ w'.nodes → w'.outDegree B = 0 → B ∈ w'.get_leaf_tasks)) := by
  have hmemleaf : ∀ (u : Workflow) (t : Task),
      t ∈ u.get_leaf_tasks ↔ (t ∈ u.nodes ∧ u.outDegree t = 0) := by
    intro u t
    unfold Workflow.get_leaf_tasks
    rw [List.mem_filter]
    simp
  refine ⟨hmemleaf w, List.filter_sublist _, ?_⟩
  intro P A B w' h
  obtain ⟨hnodes, hedges, _⟩ := connect_tasks_ok_inv h
  have hPA : (P, A) ∈ w'.edges := by
    rw [hedges]
    exact List.mem_append_right _ (by simp)
  refine ⟨?_, ?_, ?_⟩
  · intro hP
    have hdeg := ((hmemleaf w' P).mp hP).2
    unfold Workflow.outDegree at hdeg
    have : (P, A) ∈ w'.edges.filter (fun e => decide (e.1 = P)) :=
      List.mem_filter.mpr ⟨hPA, by simp⟩
    have := List.length_pos.mpr (List.ne_nil_of_mem this)
    omega
  · intro hA hdeg
    exact (hmemleaf w' A).mpr ⟨hA, hdeg⟩
  · intro hB hdeg
    exact (hmemleaf w' B).mpr ⟨hB, hdeg⟩

/-- C5 (amended): `insert_workflow(other)` without a predecessors argument
defaults the predecessors to the receiver's current leaf tasks (sequential
composition): the nodes are concatenated and every source task of `other`
becomes a successor of every pre-existing leaf task of the receiver —
exactly a call with `some w.get_leaf_tasks`.  The disjoint parallel merge
(edges exactly the union of both edge lists, no edge between the two
original graphs in either direction) is obtained by passing an explicitly
empty predecessors list. -/
theorem workflow_insert_default_predecessors (w other : Workflow)
    (hw : ∀ e ∈ w.edges, e.1 ∈ w.nodes ∧ e.2 ∈ w.nodes)
    (ho : ∀ e ∈ other.edges, e.1 ∈ other.nodes ∧ e.2 ∈ other.nodes)
    (hdisj : ∀ t ∈ w.nodes, t ∉ other.nodes) :
    (w.insert_workflow other none).nodes = w.nodes ++ other.nodes
    ∧ (w.insert_workflow other none).edges
        = w.edges ++ other.edges
          ++ w.get_leaf_tasks.flatMap
              (fun l => other.source_tasks.map (fun s => (l, s)))
    ∧ w.insert_workflow other none
        = w.insert_workflow other (some w.get_leaf_tasks)
    ∧ (∀ l ∈ w.get_leaf_tasks, ∀ s ∈ other.source_tasks,
        Edge (w.insert_workflow other none) l s)
    ∧ (w.insert_workflow other (some [])).edges = w.edges ++ other.edges
    ∧ (∀ a ∈ w.nodes, ∀ b ∈ other.nodes,
        ¬ Edge (w.insert_workflow other (some [])) a b
        ∧ ¬ Edge (w.insert_workflow other (some [])) b a) := by
  have hempty : (w.insert_workflow other (some [])).edges
      = w.edges ++ other.edges := by
    show w.edges ++ other.edges ++ [] = w.edges ++ other.edges
    rw [List.append_nil]
  refine ⟨rfl, rfl, rfl, ?_, hempty, ?_⟩
  · intro l hl s hs
    show (l, s) ∈ w.edges ++ other.edges
      ++ w.get_leaf_tasks.flatMap
          (fun p => other.source_tasks.map (fun t => (p, t)))
    exact List.mem_append_right _
      (List.mem_flatMap.mpr ⟨l, hl, List.mem_map.mpr ⟨s, hs, rfl⟩⟩)
  · intro a ha b hb
    constructor
    · intro hedge
      rw [show Edge (w.insert_workflow other (some [])) a b
          = ((a, b) ∈ (w.insert_workflow other (some [])).edges) from rfl,
        hempty] at hedge
      rcases List.mem_append.mp hedge with hwe | hoe
      · exact hdisj b ((hw _ hwe).2) hb
      · exact hdisj a ha ((ho _ hoe).1)
    · intro hedge
      rw [show Edge (w.insert_workflow other (some [])) b a
          = ((b, a) ∈ (w.insert_workflow other (some [])).edges) from rfl,
        hempty] at hedge
      rcases List.mem_append.mp hedge with hwe | hoe
      · exact hdisj b ((hw _ hwe).1) hb
      · exact hdisj a ha ((ho _ hoe).2)

theorem length_pairProduct (xs ys : List Task) :
    (xs.flatMap (fun l => ys.map (fun s => (l, s)))).length
      = xs.length * ys.length := by
  induction xs with
  | nil => simp
  | cons x xs ih =>
    simp only [List.flatMap_cons, List.length_append, List.length_map, ih,
      List.length_cons]
    ring

/-- C6: for workflows with disjoint node sets (and edges among their own
nodes), `merge_workflows` with `connect=True` produces
`|self.edges| + |other.edges| + |self.leaves| * |other.sources|` edges and
makes every former leaf of `self` a predecessor of every source of
`other`; with `connect=False` it produces `|self.edges| + |other.edges|`
edges and creates no predecessor/successor relation between the two
original graphs. -/
theorem workflow_merge_algebra (w other : Workflow)
    (hw : ∀ e ∈ w.edges, e.1 ∈ w.nodes ∧ e.2 ∈ w.nodes)
    (ho : ∀ e ∈ other.edges, e.1 ∈ other.nodes ∧ e.2 ∈ other.nodes)
    (hdisj : ∀ t ∈ w.nodes, t ∉ other.nodes) :
    (w.merge_workflows other true).edges.length
        = w.edges.length + other.edges.length
          + w.get_leaf_tasks.length * other.source_tasks.length
    ∧ (∀ l ∈ w.get_leaf_tasks, ∀ s ∈ other.source_tasks,
        (l, s) ∈ (w.merge_workflows other true).edges)
    ∧ (w.merge_workflows other false).edges.length
        = w.edges.length + other.edges.length
    ∧ (∀ a ∈ w.nodes, ∀ b ∈ other.nodes,
        ¬ Edge (w.merge_workflows other false) a b
        ∧ ¬ Edge (w.merge_workflows other false) b a) := by
  have htrue : (w.merge_workflows other true).edges
      = w.edges ++ other.edges
        ++ w.get_leaf_tasks.flatMap
            (fun l => other.source_tasks.map (fun s => (l, s))) := rfl
  have hfalse : (w.merge_workflows other false).edges
      = w.edges ++ other.edges ++ [] := rfl
  refine ⟨?_, ?_, ?_, ?_⟩
  · rw [htrue, List.length_append, List.length_append, length_pairProduct]
  · intro l hl s hs
    rw [htrue]
    exact List.mem_append_right _
      (List.mem_flatMap.mpr ⟨l, hl, List.mem_map.mpr ⟨s, hs, rfl⟩⟩)
  · rw [hfalse, List.append_nil, List.length_append]
  · intro a ha b hb
    have hedges : (w.merge_workflows other false).edges
        = w.edges ++ other.edges := by rw [hfalse, List.append_nil]
    constructor
    · intro hedge
      rw [show Edge (w.merge_workflows other false) a b
          = ((a, b) ∈ (w.merge_workflows other false).edges) from rfl,
        hedges] at hedge
      rcases List.mem_append.mp hedge with hwe | hoe
      · exact hdisj b ((hw _ hwe).2) hb
      · exact hdisj a ha ((ho _ hoe).1)
    · intro hedge
      rw [show Edge (w.merge_workflows other false) b a
          = ((b, a) ∈ (w.merge_workflows other false).edges) from rfl,
        hedges] at hedge
      rcases List.mem_append.mp hedge with hwe | hoe
      · exact hdisj b ((hw _ hwe).1) hb
      · exact hdisj a ha ((ho _ hoe).2)

/-- Test fixture task `t1` of `tests/tools/test_workflows.py`. -/
def taskT1 : Task := Task.mk 1 "t1"

/-- Test fixture task `t2`. -/
def taskT2 : Task := Task.mk 2 "t2"

/-- Test fixture task `t3`. -/
def taskT3 : Task := Task.mk 3 "t3"

/-- Test fixture task `t4`. -/
def taskT4 : Task := Task.mk 4 "t4"

/-- The `wf_sequential` fixture graph: `t1 → t2`, `t1 → t3`. -/
def wfSeq : Workflow :=
  Workflow.mk [taskT1, taskT2, taskT3] [(taskT1, taskT2), (taskT1, taskT3)]

/-- The workflow of the fixture before connecting. -/
def wfFlat : Workflow := Workflow.mk [taskT1, taskT2, taskT3] []

/-- The single-task workflow `wf_t4`. -/
def wfT4 : Workflow := Workflow.mk [taskT4] []

/-- C5 counterexample: calling `insert_workflow` with no predecessors
argument on the test fixture graph wires the receiver's leaf `t2` to
`other`'s node `t4` — a node of `other` does become a successor of a
pre-existing leaf task, and the edge set is not the disjoint union. -/
theorem workflow_insert_none_not_parallel :
    taskT2 ∈ wfSeq.get_leaf_tasks
    ∧ taskT4 ∈ wfT4.nodes
    ∧ Edge (wfSeq.insert_workflow wfT4 none) taskT2 taskT4
    ∧ (wfSeq.insert_workflow wfT4 none).edges ≠ wfSeq.edges ++ wfT4.edges := by
  decide

theorem workflow_insert_default_predecessors_witness :
    ((∀ e ∈ wfSeq.edges, e.1 ∈ wfSeq.nodes ∧ e.2 ∈ wfSeq.nodes)
      ∧ (∀ t ∈ wfSeq.nodes, t ∉ wfT4.nodes))
    ∧ (∀ l ∈ wfSeq.get_leaf_tasks, ∀ s ∈ wfT4.source_tasks,
        Edge (wfSeq.insert_workflow wfT4 none) l s)
    ∧ (wfSeq.insert_workflow wfT4 (some [])).edges = wfSeq.edges ++ wfT4.edges :=
  ⟨⟨by decide, by decide⟩,
    (workflow_insert_default_predecessors wfSeq wfT4
      (by decide) (by decide) (by decide)).2.2.2.1,
    (workflow_insert_default_predecessors wfSeq wfT4
      (by decide) (by decide) (by decide)).2.2.2.2.1⟩

theorem workflow_merge_algebra_witness :
    (∀ t ∈ wfSeq.nodes, t ∉ wfT4.nodes)
    ∧ (wfSeq.merge_workflows wfT4 true).edges.length
        = wfSeq.edges.length + wfT4.edges.length
          + wfSeq.get_leaf_tasks.length * wfT4.source_tasks.length
    ∧ (wfSeq.merge_workflows wfT4 false).edges.length
        = wfSeq.edges.length + wfT4.edges.length :=
  ⟨by decide,
    (workflow_merge_algebra wfSeq wfT4 (by decide) (by decide) (by decide)).1,
    (workflow_merge_algebra wfSeq wfT4 (by decide) (by decide) (by decide)).2.2.1⟩

theorem workflow_connect_tasks_witness :
    (∃ msg, wfSeq.connect_tasks [(taskT1, [taskT1])] = .error msg)
    ∧ (∃ msg, wfSeq.connect_tasks [(taskT2, [taskT1])] = .error msg) :=
  ⟨(workflow_connect_tasks_acyclic wfSeq [(taskT1, [taskT1])]).1
      (taskT1, [taskT1]) (by decide) taskT1 (by decide) rfl,
    (workflow_connect_tasks_acyclic wfSeq [(taskT2, [taskT1])]).2.2.1
      ⟨taskT1,
        Relation.TransGen.tail
          (Relation.TransGen.single (show EdgeIn _ taskT1 taskT2 by decide))
          (show EdgeIn _ taskT2 taskT1 by decide)⟩⟩

theorem workflow_get_leaf_tasks_witness :
    wfFlat.connect_tasks [(taskT1, [taskT2, taskT3])] = .ok wfSeq
    ∧ taskT1 ∉ wfSeq.get_leaf_tasks
    ∧ taskT2 ∈ wfSeq.get_leaf_tasks
    ∧ taskT3 ∈ wfSeq.get_leaf_tasks :=
  ⟨rfl,
    ((workflow_get_leaf_tasks_spec wfFlat).2.2 taskT1 taskT2 taskT3 wfSeq
      rfl).1,
    ((workflow_get_leaf_tasks_spec wfFlat).2.2 taskT1 taskT2 taskT3 wfSeq
      rfl).2.1 (by decide) (by decide),
    ((workflow_get_leaf_tasks_spec wfFlat).2.2 taskT1 taskT2 taskT3 wfSeq
      rfl).2.2 (by decide) (by decide)⟩

/-- A model parameter (name, initial estimate, FIX status), as exposed by
`model.parameters` in `plugins/nonmem/results.py`. -/
structure Parameter where
  name : String
  init : Rat
  fix : Bool
deriving DecidableEq

/-- One estimation step; `cov` is whether a covariance step was requested
(`model.estimation_steps[k].cov`). -/
structure EstimationStep where
  cov : Bool
deriving DecidableEq

/-- The slice of the NONMEM model object that `_read_ext_table` and
`_fill_empty_results` consult. -/
structure NModel where
  name : String
  parameters : List Parameter
  estimation_steps : List EstimationStep
deriving DecidableEq

/-- A float cell of a results series: either `np.nan` or a number. -/
inductive PEVal where
  | nan
  | val (x : Rat)
deriving DecidableEq

/-- The fields of `NONMEMModelfitResults` that the broken-ext-file path
sets: `model_name`, `table_number`, `parameter_estimates` (a series indexed
by parameter name), `ofv` and `standard_errors`. -/
structure NONMEMModelfitResults where
  model_name : String
  table_number : Nat
  parameter_estimates : List (String × PEVal)
  ofv : PEVal
  standard_errors : Option (List (String × PEVal))
deriving DecidableEq

/-- An entry of the structured run log. -/
structure LogEntry where
  category : String
  message : String
deriving DecidableEq

/-- Modelled from the spec: `pharmpy.workflows.log.Log` is not among the
sources; per §7, data-quality problems are "logged to a structured run
log".  The log is the ordered list of its entries. -/
structure Log where
  entries : List LogEntry
deriving DecidableEq

/-- Modelled from the spec: `Log.log_error(message)` appends an error entry
to the run log. -/
def Log.log_error (log : Log) (message : String) : Log :=
  Log.mk (log.entries ++ [LogEntry.mk "ERROR" message])

/-- `model.parameters.nonfixed.inits.keys`: the names of the non-fixed
parameters. -/
def nonfixedParamNames (model : NModel) : List String :=
  (model.parameters.filter (fun p => ! p.fix)).map Parameter.name

/-- `_fill_empty_results`: NaN estimates for every parameter that should
be estimated, NaN ofv, and NaN standard errors exactly when a covariance
step was requested (`None` otherwise). -/
def fill_empty_results (model : NModel) (result_obj : NONMEMModelfitResults)
    (is_covariance_step : Bool) : NONMEMModelfitResults :=
  NONMEMModelfitResults.mk result_obj.model_name result_obj.table_number
    ((nonfixedParamNames model).map (fun k => (k, PEVal.nan)))
    PEVal.nan
    (if is_covariance_step then
      some ((nonfixedParamNames model).map (fun k => (k, PEVal.nan)))
    else none)

/-- The state of the results chain (`NONMEMChainedModelfitResults`): the
run log and the list of appended per-table result objects. -/
structure ChainState where
  log : Log
  results : List NONMEMModelfitResults
deriving DecidableEq

/-- `_read_ext_table`: when `NONMEMTableFile` raises `ValueError` (the ext
file is illegal, modelled by `parse = .error`), log the broken file,
build a result object with `model_name` from the path stem, fill it with
empty results using `estimation_steps[0].cov` (an `IndexError` on an empty
step list propagates, modelled by `.error`), set `table_number = 1`, and
append it; the success path of the function is abstracted as
`successPath`, which the claim does not touch. -/
def read_ext_table {E : Type} (path_stem : String) (model : NModel)
    (parse : Except Unit E)
    (successPath : E → ChainState → Except Unit ChainState)
    (st : ChainState) : Except Unit ChainState :=
  match parse with
  | .ok ext_tables => successPath ext_tables st
  | .error _ =>
    let log := st.log.log_error ("Broken ext-file " ++ path_stem ++ ".ext")
    let result_obj := NONMEMModelfitResults.mk path_stem 0 [] PEVal.nan none
    match model.estimation_steps.head? with
    | none => .error ()
    | some step0 =>
      let filled := fill_empty_results model result_obj step0.cov
      let final := NONMEMModelfitResults.mk filled.model_name 1
        filled.parameter_estimates filled.ofv filled.standard_errors
      .ok (ChainState.mk log (st.results ++ [final]))

/-- C9: when the ext result file is unreadable (parsing raises
`ValueError`), the reader does not propagate the error: it appends exactly
one "Broken ext-file" error entry to the run log and appends a result
object whose parameter estimates are NaN for every non-fixed parameter,
whose ofv is NaN, and whose standard errors are a NaN series when a
covariance step was requested and `None` otherwise. -/
theorem read_ext_table_broken_file {E : Type} (path_stem : String)
    (model : NModel) (successPath : E → ChainState → Except Unit ChainState)
    (st : ChainState) (step0 : EstimationStep) (rest : List EstimationStep)
    (hsteps : model.estimation_steps = step0 :: rest) :
    ∃ r, read_ext_table path_stem model (.error ()) successPath st
        = .ok (ChainState.mk
            (st.log.log_error ("Broken ext-file " ++ path_stem ++ ".ext"))
            (st.results ++ [r]))
      ∧ (st.log.log_error ("Broken ext-file " ++ path_stem ++ ".ext")).entries
          = st.log.entries
            ++ [LogEntry.mk "ERROR" ("Broken ext-file " ++ path_stem ++ ".ext")]
      ∧ r.parameter_estimates
          = (nonfixedParamNames model).map (fun k => (k, PEVal.nan))
      ∧ (∀ p ∈ model.parameters, p.fix = false →
          (p.name, PEVal.nan) ∈ r.parameter_estimates)
      ∧ r.ofv = PEVal.nan
      ∧ r.standard_errors
          = (if step0.cov then
              some ((nonfixedParamNames model).map (fun k => (k, PEVal.nan)))
            else none)
      ∧ r.table_number = 1
      ∧ r.model_name = path_stem := by
  refine ⟨NONMEMModelfitResults.mk path_stem 1
      ((nonfixedParamNames model).map (fun k => (k, PEVal.nan)))
      PEVal.nan
      (if step0.cov then
        some ((nonfixedParamNames model).map (fun k => (k, PEVal.nan)))
      else none), ?_, rfl, rfl, ?_, rfl, rfl, rfl, rfl⟩
  · unfold read_ext_table
    rw [hsteps]
    rfl
  · intro p hp hfix
    refine List.mem_map.mpr ⟨p.name, ?_, rfl⟩
    exact List.mem_map.mpr ⟨p, List.mem_filter.mpr ⟨hp, by simp [hfix]⟩, rfl⟩

/-- Concrete two-parameter model for the witness: `CL` estimated, `V`
fixed, with a covariance step requested. -/
def nmodelDemo : NModel :=
  NModel.mk "run1"
    [Parameter.mk "CL" 1 false, Parameter.mk "V" 2 true]
    [EstimationStep.mk true]

theorem read_ext_table_broken_file_witness :
    nmodelDemo.estimation_steps = EstimationStep.mk true :: []
    ∧ ∃ r, read_ext_table "run1" nmodelDemo
          (.error ()) (fun (_ : Unit) st => .ok st)
          (ChainState.mk (Log.mk []) [])
        = .ok (ChainState.mk
            ((Log.mk []).log_error ("Broken ext-file " ++ "run1" ++ ".ext"))
            ([] ++ [r]))
      ∧ ((Log.mk []).log_error ("Broken ext-file " ++ "run1" ++ ".ext")).entries
          = (Log.mk []).entries
            ++ [LogEntry.mk "ERROR" ("Broken ext-file " ++ "run1" ++ ".ext")]
      ∧ r.parameter_estimates
          = (nonfixedParamNames nmodelDemo).map (fun k => (k, PEVal.nan))
      ∧ (∀ p ∈ nmodelDemo.parameters, p.fix = false →
          (p.name, PEVal.nan) ∈ r.parameter_estimates)
      ∧ r.ofv = PEVal.nan
      ∧ r.standard_errors
          = (if (EstimationStep.mk true).cov then
              some ((nonfixedParamNames nmodelDemo).map (fun k => (k, PEVal.nan)))
            else none)
      ∧ r.table_number = 1
      ∧ r.model_name = "run1" :=
  ⟨rfl,
    read_ext_table_broken_file "run1" nmodelDemo (fun (_ : Unit) st => .ok st)
      (ChainState.mk (Log.mk []) []) (EstimationStep.mk true) [] rfl⟩

/-- Modelled from the spec: `pharmpy.modeling.lrt.best_of_many` is not
among the sources.  Per §4.3 step 3 ("apply a likelihood-ratio-style
comparison between the parent model and every new candidate at the
configured significance threshold; select the single best-improving
candidate, or, if none improves significantly, the parent itself") and
§8's tie-break ("when multiple candidates tie on the ranking criterion,
the first in that list order wins"): keep the candidates that improve on
the parent significantly at `alpha` (p-value oracle `pv`, objective oracle
`ofv`), and pick the first of minimal objective among them. -/
def lrt_best_of_many (pv : M → M → Rat) (ofv : M → Rat) (parent : M)
    (ms : List M) (alpha : Rat) : M :=
  match ms.filter (fun m => decide (pv parent m ≤ alpha ∧ ofv m < ofv parent)) with
  | [] => parent
  | m :: rest => rest.foldl (fun acc m' => if ofv m' < ofv acc then m' else acc) m

theorem foldl_min_mem (ofv : M → Rat) :
    ∀ (rest : List M) (acc : M),
      rest.foldl (fun acc m' => if ofv m' < ofv acc then m' else acc) acc
        ∈ acc :: rest := by
  intro rest
  induction rest with
  | nil => intro acc; simp
  | cons x rest ih =>
    intro acc
    show List.foldl _ (if ofv x < ofv acc then x else acc) rest ∈ acc :: x :: rest
    rcases List.mem_cons.mp (ih (if ofv x < ofv acc then x else acc)) with h | h
    · by_cases hc : ofv x < ofv acc
      · rw [if_pos hc] at h ⊢
        rw [h]
        simp
      · rw [if_neg hc] at h ⊢
        rw [h]
        simp
    · exact List.mem_cons.mpr (Or.inr (List.mem_cons.mpr (Or.inr h)))

/-- The contract of `lrt_best_of_many`: the result is the parent, or one
of the candidates that is significant against the parent at `alpha`. -/
theorem lrt_best_of_many_spec (pv : M → M → Rat) (ofv : M → Rat) (parent : M)
    (ms : List M) (alpha : Rat) :
    lrt_best_of_many pv ofv parent ms alpha = parent
    ∨ (lrt_best_of_many pv ofv parent ms alpha ∈ ms
        ∧ pv parent (lrt_best_of_many pv ofv parent ms alpha) ≤ alpha) := by
  unfold lrt_best_of_many
  cases hf : ms.filter (fun m => decide (pv parent m ≤ alpha ∧ ofv m < ofv parent)) with
  | nil => exact Or.inl rfl
  | cons m rest =>
    right
    have hmem : (rest.foldl (fun acc m' => if ofv m' < ofv acc then m' else acc) m)
        ∈ m :: rest := foldl_min_mem ofv rest m
    rw [← hf] at hmem
    obtain ⟨hms, hp⟩ := List.mem_filter.mp hmem
    exact ⟨hms, (of_decide_eq_true hp).1⟩

/-- `models_dict[candidate.model.parent_model]` of `_make_df_steps`: the
model of the candidate whose name (`nm`) equals `c`'s parent-model name
(`pn`). -/
def resolveParent (nm pn : M → String) (candidates : List (Candidate M))
    (c : Candidate M) : Option M :=
  (candidates.map Candidate.model).find? (fun m => decide (nm m = pn c.model))

/-- The fields of a `_marke_df_steps_row` record consulted by the claim
(the filesystem `directory`, the `np.nan` `covariate_effects` column and
the parameter-count `delta_df` are not modelled). -/
structure StepsRow (M : Type) where
  step : Nat
  parameter : String
  covariate : String
  extended_state : String
  reduced_ofv : Rat
  extended_ofv : Rat
  pvalue : Rat
  goal_pvalue : Rat
  is_backward : Bool
  extended_significant : Bool
  selected : Bool
  model : M

/-- `_marke_df_steps_row`: `none` models a raised exception — a `KeyError`
from `models_dict`, an `IndexError` from `steps[-1]`, or the
`assert not selected or extended_significant` failing. -/
def marke_df_steps_row [DecidableEq M] (nm pn : M → String) (pv : M → M → Rat)
    (ofv : M → Rat)
    (candidates : List (Candidate M)) (best_model : M) (c : Candidate M) :
    Option (StepsRow M) :=
  match resolveParent nm pn candidates c with
  | none => none
  | some parent_model =>
    match c.steps.getLast? with
    | none => none
    | some last =>
      let p_value := pv parent_model c.model
      let alpha := last.alpha
      let selected :=
        decide (1 ≤ candidates.countP (fun c' => decide (pn c'.model = nm c.model)))
        || decide (c.model = best_model)
      let extended_significant := decide (p_value ≤ alpha)
      if selected && ! extended_significant then none
      else
        some (StepsRow.mk c.steps.length last.effect.parameter
          last.effect.covariate (last.effect.operation ++ " " ++ last.effect.fp)
          (ofv parent_model) (ofv c.model) p_value alpha last.is_backward
          extended_significant selected c.model)

/-- All-or-nothing option-valued map (a Python generator whose first
raised exception aborts the dataframe construction). -/
def optionMapAll {α β : Type} (f : α → Option β) : List α → Option (List β)
  | [] => some []
  | x :: xs =>
    match f x, optionMapAll f xs with
    | some y, some ys => some (y :: ys)
    | _, _ => none

/-- `_make_df_steps`: one row per candidate with non-empty steps. -/
def make_df_steps [DecidableEq M] (nm pn : M → String) (pv : M → M → Rat)
    (ofv : M → Rat)
    (best_model : M) (candidates : List (Candidate M)) :
    Option (List (StepsRow M)) :=
  optionMapAll (marke_df_steps_row nm pn pv ofv candidates best_model)
    (candidates.filter (fun c => ! c.steps.isEmpty))

/-- Candidate `c` is significant against its resolved parent at its last
step's threshold. -/
def SigAgainstParent (nm pn : M → String) (pv : M → M → Rat)
    (r : List (Candidate M)) (c : Candidate M) : Prop :=
  ∀ last, c.steps.getLast? = some last →
    ∀ pm, resolveParent nm pn r c = some pm → pv pm c.model ≤ last.alpha

/-- The per-list invariant needed for the steps-table safety claim. -/
def GoodList10 (nm pn : M → String) (pv : M → M → Rat) (p_forward : Rat)
    (start : Candidate M) (r : List (Candidate M)) : Prop :=
  start ∈ r
  ∧ start.steps = []
  ∧ (r.map (fun c => nm c.model)).Nodup
  ∧ (∀ c ∈ r, c.steps = [] → c = start)
  ∧ (∀ c ∈ r, ∀ st ∈ c.steps, st.alpha = p_forward)
  ∧ (∀ c ∈ r, c.steps ≠ [] → ∃ c' ∈ r, nm c'.model = pn c.model)
  ∧ (∀ c ∈ r, (∃ c' ∈ r, pn c'.model = nm c.model) → SigAgainstParent nm pn pv r c)

/-- The state invariant: the history is good, the current best is in the
history and is significant against its own parent. -/
def Inv10 (nm pn : M → String) (pv : M → M → Rat) (p_forward : Rat)
    (start : Candidate M) (s : SearchState M) : Prop :=
  GoodList10 nm pn pv p_forward start s.all
  ∧ s.best ∈ s.all
  ∧ SigAgainstParent nm pn pv s.all s.best

theorem find?_name_unique {nm : M → String} :
    ∀ {r : List (Candidate M)}, (r.map (fun c => nm c.model)).Nodup →
      ∀ {c' : Candidate M}, c' ∈ r → ∀ {target : String}, nm c'.model = target →
      (r.map Candidate.model).find? (fun m => decide (nm m = target))
        = some c'.model := by
  intro r
  induction r with
  | nil => intro _ c' hc'; exact absurd hc' (by simp)
  | cons c0 rest ih =>
    intro hnd c' hc' target ht
    have hnd' := List.nodup_cons.mp hnd
    by_cases h0 : nm c0.model = target
    · have : c' = c0 := by
        rcases List.mem_cons.mp hc' with h | h
        · exact h
        · exact absurd (List.mem_map.mpr ⟨c', h, ht.trans h0.symm⟩) hnd'.1
      rw [this]
      exact List.find?_cons_of_pos _ (by simpa using h0)
    · have hc'rest : c' ∈ rest := by
        rcases List.mem_cons.mp hc' with h | h
        · exact absurd (by rw [h] at ht; exact ht) h0
        · exact h
      rw [show ((c0 :: rest).map Candidate.model)
          = c0.model :: rest.map Candidate.model from rfl]
      rw [List.find?_cons_of_neg _ (by simpa using h0)]
      exact ih hnd'.2 hc'rest ht

theorem resolveParent_append {nm pn : M → String} {r ext : List (Candidate M)}
    {c : Candidate M} {pm : M} (h : resolveParent nm pn r c = some pm) :
    resolveParent nm pn (r ++ ext) c = some pm := by
  unfold resolveParent at h ⊢
  rw [List.map_append, List.find?_append, h]
  rfl

theorem resolveParent_of_goodList {nm pn : M → String} {pv : M → M → Rat}
    {p_forward : Rat} {start : Candidate M} {r : List (Candidate M)}
    (hg : GoodList10 nm pn pv p_forward start r) {c : Candidate M}
    (hc : c ∈ r) (hne : c.steps ≠ []) :
    ∃ c' ∈ r, nm c'.model = pn c.model
      ∧ resolveParent nm pn r c = some c'.model := by
  obtain ⟨c', hc', hnm⟩ := hg.2.2.2.2.2.1 c hc hne
  exact ⟨c', hc', hnm, find?_name_unique hg.2.2.1 hc' hnm⟩

theorem goodList10_append [DecidableEq M] {nm pn : M → String}
    {pv : M → M → Rat} {cw : Nat → M → List Effect → List M}
    {p_forward : Rat} {start : Candidate M} {s : SearchState M}
    (hlen : (cw s.step s.best.model s.candidate_effects).length
      = s.candidate_effects.length)
    (hfresh : ∀ m ∈ cw s.step s.best.model s.candidate_effects,
        nm m ∉ s.all.map (fun c => nm c.model) ∧ nm m ≠ pn start.model)
    (hnodupcw : ((cw s.step s.best.model s.candidate_effects).map nm).Nodup)
    (hpn : ∀ m ∈ cw s.step s.best.model s.candidate_effects,
        pn m = nm s.best.model)
    (hg : GoodList10 nm pn pv p_forward start s.all)
    (hbest : s.best ∈ s.all)
    (hbestsig : SigAgainstParent nm pn pv s.all s.best) :
    GoodList10 nm pn pv p_forward start (s.all ++ roundCandidates cw p_forward s) := by
  obtain ⟨hstartmem, hstart, hnodup, hzero, halpha, hres, hchild⟩ := hg
  have hnewfacts : ∀ c ∈ roundCandidates cw p_forward s,
      c.model ∈ cw s.step s.best.model s.candidate_effects
      ∧ ∃ e ∈ s.candidate_effects,
          c.steps = s.best.steps ++ [Step.forward p_forward e] := by
    intro c hc
    obtain ⟨me, hz, hbe⟩ := List.mem_map.mp hc
    have hm := List.of_mem_zip hz
    constructor
    · rw [← hbe]; exact hm.1
    · exact ⟨me.2, hm.2, by rw [← hbe]⟩
  have hnewnames : (roundCandidates cw p_forward s).map (fun c => nm c.model)
      = (cw s.step s.best.model s.candidate_effects).map nm := by
    unfold roundCandidates
    rw [List.map_map]
    have h1 : (((cw s.step s.best.model s.candidate_effects).zip
          s.candidate_effects).map
        ((fun c => nm c.model)
          ∘ fun me => Candidate.mk me.1 (s.best.steps ++ [Step.forward p_forward me.2])))
        = (((cw s.step s.best.model s.candidate_effects).zip
            s.candidate_effects).map Prod.fst).map nm := by
      rw [List.map_map]
      rfl
    rw [h1, List.map_fst_zip _ _ (le_of_eq hlen)]
  have hfreshnew : ∀ c ∈ roundCandidates cw p_forward s,
      nm c.model ∉ s.all.map (fun c => nm c.model) ∧ nm c.model ≠ pn start.model :=
    fun c hc => hfresh c.model (hnewfacts c hc).1
  have hnodupall : ((s.all ++ roundCandidates cw p_forward s).map
      (fun c => nm c.model)).Nodup := by
    rw [List.map_append, List.nodup_append]
    refine ⟨hnodup, by rw [hnewnames]; exact hnodupcw, ?_⟩
    intro a ha hb
    obtain ⟨c, hc, hca⟩ := List.mem_map.mp hb
    rw [← hca] at ha
    exact (hfreshnew c hc).1 ha
  have hpnold : ∀ c ∈ s.all,
      pn c.model = pn start.model
      ∨ pn c.model ∈ s.all.map (fun c => nm c.model) := by
    intro c hc
    by_cases hcs : c.steps = []
    · rw [hzero c hc hcs]
      exact Or.inl rfl
    · obtain ⟨c', hc', hc'nm⟩ := hres c hc hcs
      exact Or.inr (by rw [← hc'nm]; exact List.mem_map.mpr ⟨c', hc', rfl⟩)
  have hbestname : nm s.best.model ∈ s.all.map (fun c => nm c.model) :=
    List.mem_map.mpr ⟨s.best, hbest, rfl⟩
  refine ⟨List.mem_append_left _ hstartmem, hstart, hnodupall, ?_, ?_, ?_, ?_⟩
  · intro c hc hcs
    rcases List.mem_append.mp hc with h | h
    · exact hzero c h hcs
    · obtain ⟨_, e, _, hsteps⟩ := hnewfacts c h
      rw [hsteps] at hcs
      simp at hcs
  · intro c hc st hst
    rcases List.mem_append.mp hc with h | h
    · exact halpha c h st hst
    · obtain ⟨_, e, _, hsteps⟩ := hnewfacts c h
      rw [hsteps] at hst
      rcases List.mem_append.mp hst with h' | h'
      · exact halpha s.best hbest st h'
      · rw [List.mem_singleton.mp h']
        rfl
  · intro c hc hcs
    rcases List.mem_append.mp hc with h | h
    · obtain ⟨c', hc', hc'nm⟩ := hres c h hcs
      exact ⟨c', List.mem_append_left _ hc', hc'nm⟩
    · refine ⟨s.best, List.mem_append_left _ hbest, ?_⟩
      exact (hpn c.model (hnewfacts c h).1).symm
  · intro c hc hex last hlast pm hpm
    have hcs : c.steps ≠ [] := by
      intro hnil
      rw [hnil] at hlast
      exact absurd hlast (by simp)
    rcases List.mem_append.mp hc with hcold | hcnew
    · -- c is an old candidate: its resolved parent is unchanged
      obtain ⟨cp, hcp, hcpnm, hcpres⟩ :=
        resolveParent_of_goodList
          ⟨hstartmem, hstart, hnodup, hzero, halpha, hres, hchild⟩ hcold hcs
      have hres' := @resolveParent_append M nm pn s.all
        (roundCandidates cw p_forward s) c cp.model hcpres
      have hpm' : pm = cp.model := by
        rw [hres'] at hpm
        exact (Option.some.inj hpm).symm
      obtain ⟨c'', hc'', hpnc''⟩ := hex
      rcases List.mem_append.mp hc'' with hold'' | hnew''
      · have hsig := hchild c hcold ⟨c'', hold'', hpnc''⟩ last hlast cp.model hcpres
        rw [hpm']
        exact hsig
      · have hpn'' : pn c''.model = nm s.best.model :=
          hpn c''.model (hnewfacts c'' hnew'').1
        have : c = s.best :=
          List.inj_on_of_nodup_map hnodup hcold hbest
            (by rw [← hpnc'', hpn''])
        rw [hpm']
        rw [this] at hlast hcpres ⊢
        exact hbestsig last hlast cp.model hcpres
    · -- c is a new candidate: it can have no child, contradiction
      exfalso
      obtain ⟨c'', hc'', hpnc''⟩ := hex
      have hcfresh := hfreshnew c hcnew
      rcases List.mem_append.mp hc'' with hold'' | hnew''
      · rcases hpnold c'' hold'' with h' | h'
        · exact hcfresh.2 (by rw [← hpnc'', h'])
        · exact hcfresh.1 (by rw [← hpnc'']; exact h')
      · have hpn'' : pn c''.model = nm s.best.model :=
          hpn c''.model (hnewfacts c'' hnew'').1
        have hceq : nm c.model = nm s.best.model := by rw [← hpnc'', hpn'']
        exact hcfresh.1 (by rw [hceq]; exact hbestname)

theorem inv10_round_next [DecidableEq M] {nm pn : M → String}
    {pv : M → M → Rat} {ofv : M → Rat} {cw : Nat → M → List Effect → List M}
    {p_forward : Rat} {start : Candidate M} {s s' : SearchState M}
    (hlen : (cw s.step s.best.model s.candidate_effects).length
      = s.candidate_effects.length)
    (hfresh : ∀ m ∈ cw s.step s.best.model s.candidate_effects,
        nm m ∉ s.all.map (fun c => nm c.model) ∧ nm m ≠ pn start.model)
    (hnodupcw : ((cw s.step s.best.model s.candidate_effects).map nm).Nodup)
    (hpn : ∀ m ∈ cw s.step s.best.model s.candidate_effects,
        pn m = nm s.best.model)
    (hinv : Inv10 nm pn pv p_forward start s)
    (h : searchRound cw (fun p ms => lrt_best_of_many pv ofv p ms p_forward)
        p_forward s = .next s') :
    Inv10 nm pn pv p_forward start s' := by
  obtain ⟨best', last, hf, hl, hb, hne, hs'⟩ := searchRound_next_inv h
  have hgood' := goodList10_append hlen hfresh hnodupcw hpn hinv.1 hinv.2.1 hinv.2.2
  have hspec := lrt_best_of_many_spec pv ofv s.best.model
    (cw s.step s.best.model s.candidate_effects) p_forward
  rcases hspec with heq | ⟨hmem, hsig⟩
  · exact absurd heq hb
  · have hpred := List.find?_some hf
    have hbm : best'.model
        = lrt_best_of_many pv ofv s.best.model
            (cw s.step s.best.model s.candidate_effects) p_forward :=
      of_decide_eq_true hpred
    have hmemall := List.mem_of_find?_eq_some hf
    have hnotold : best' ∉ s.all := by
      intro hold
      have hmm : nm best'.model ∈ s.all.map (fun c => nm c.model) :=
        List.mem_map.mpr ⟨best', hold, rfl⟩
      rw [hbm] at hmm
      exact (hfresh _ hmem).1 hmm
    have hmemnew : best' ∈ roundCandidates cw p_forward s := by
      rcases List.mem_append.mp hmemall with h' | h'
      · exact absurd h' hnotold
      · exact h'
    obtain ⟨me, hz, hbe⟩ := List.mem_map.mp hmemnew
    have hbmodel : best'.model = me.1 := by rw [← hbe]
    have hsteps : best'.steps = s.best.steps ++ [Step.forward p_forward me.2] := by
      rw [← hbe]
    refine ⟨by rw [hs']; exact hgood', by rw [hs']; exact hmemall, ?_⟩
    rw [hs']
    intro last' hlast' pm hpm
    have hlast'' : last' = Step.forward p_forward me.2 := by
      rw [show (SearchState.mk (s.step + 1)
          (s.candidate_effects.filter (keepEffect last.effect)) best'
          (s.all ++ roundCandidates cw p_forward s)).best = best' from rfl] at hlast'
      rw [hsteps, List.getLast?_concat] at hlast'
      exact (Option.some.inj hlast').symm
    have hpnbest : pn best'.model = nm s.best.model := by
      rw [hbmodel]
      exact hpn me.1 (List.of_mem_zip hz).1
    have hresolve : resolveParent nm pn
        (s.all ++ roundCandidates cw p_forward s) best' = some s.best.model :=
      find?_name_unique hgood'.2.2.1
        (List.mem_append_left _ hinv.2.1) hpnbest.symm
    have hpm' : pm = s.best.model := by
      rw [show (SearchState.mk (s.step + 1)
          (s.candidate_effects.filter (keepEffect last.effect)) best'
          (s.all ++ roundCandidates cw p_forward s)).all
          = s.all ++ roundCandidates cw p_forward s from rfl] at hpm
      rw [hresolve] at hpm
      exact (Option.some.inj hpm).symm
    rw [hpm', hlast'']
    show pv s.best.model best'.model ≤ p_forward
    rw [hbm]
    exact hsig

theorem inv10_round_done [DecidableEq M] {nm pn : M → String}
    {pv : M → M → Rat} {ofv : M → Rat} {cw : Nat → M → List Effect → List M}
    {p_forward : Rat} {start : Candidate M} {s : SearchState M}
    {r : List (Candidate M)}
    (hlen : (cw s.step s.best.model s.candidate_effects).length
      = s.candidate_effects.length)
    (hfresh : ∀ m ∈ cw s.step s.best.model s.candidate_effects,
        nm m ∉ s.all.map (fun c => nm c.model) ∧ nm m ≠ pn start.model)
    (hnodupcw : ((cw s.step s.best.model s.candidate_effects).map nm).Nodup)
    (hpn : ∀ m ∈ cw s.step s.best.model s.candidate_effects,
        pn m = nm s.best.model)
    (hinv : Inv10 nm pn pv p_forward start s)
    (h : searchRound cw (fun p ms => lrt_best_of_many pv ofv p ms p_forward)
        p_forward s = .done r) :
    GoodList10 nm pn pv p_forward start r := by
  rcases searchRound_done_inv h with ⟨_, hr⟩ | ⟨_, _, hr⟩
  · rw [hr]; exact hinv.1
  · rw [hr]
    exact goodList10_append hlen hfresh hnodupcw hpn hinv.1 hinv.2.1 hinv.2.2

/-- Generic run soundness: an invariant preserved by `next` rounds whose
`done` rounds establish `Fin` yields `Fin` for every completed run. -/
theorem searchRun_fin [DecidableEq M] {cw : Nat → M → List Effect → List M}
    {bom : M → List M → M} {p_forward : Rat} {s0 : SearchState M}
    {Inv : SearchState M → Prop} {Fin : List (Candidate M) → Prop}
    (hnext : ∀ t t', Reaches cw bom p_forward s0 t →
        searchRound cw bom p_forward t = .next t' → Inv t → Inv t')
    (hdone : ∀ t r, Reaches cw bom p_forward s0 t →
        searchRound cw bom p_forward t = .done r → Inv t → Fin r)
    (hall : ∀ t, Reaches cw bom p_forward s0 t → Inv t → Fin t.all) :
    (∀ n t r, Reaches cw bom p_forward s0 t → Inv t →
        searchBounded cw bom p_forward n t = .ok r → Fin r)
    ∧ (∀ n t r, Reaches cw bom p_forward s0 t → Inv t →
        searchUnbounded cw bom p_forward n t = some (.ok r) → Fin r) := by
  constructor
  · intro n
    induction n with
    | zero =>
      intro t r hre hinv h
      simp only [searchBounded] at h
      cases h
      exact hall t hre hinv
    | succ n ih =>
      intro t r hre hinv h
      simp only [searchBounded] at h
      cases hr : searchRound cw bom p_forward t with
      | done rr =>
        rw [hr] at h
        cases h
        exact hdone t _ hre hr hinv
      | failed => rw [hr] at h; exact absurd h (by simp)
      | next t' =>
        rw [hr] at h
        exact ih t' r (Reaches.step hre hr) (hnext t t' hre hr hinv) h
  · intro n
    induction n with
    | zero =>
      intro t r hre hinv h
      simp only [searchUnbounded] at h
      cases hr : searchRound cw bom p_forward t with
      | done rr =>
        rw [hr] at h
        cases h
        exact hdone t _ hre hr hinv
      | failed => rw [hr] at h; simp at h
      | next t' => rw [hr] at h; exact absurd h (by simp)
    | succ n ih =>
      intro t r hre hinv h
      simp only [searchUnbounded] at h
      cases hr : searchRound cw bom p_forward t with
      | done rr =>
        rw [hr] at h
        cases h
        exact hdone t _ hre hr hinv
      | failed => rw [hr] at h; simp at h
      | next t' =>
        rw [hr] at h
        exact ih t' r (Reaches.step hre hr) (hnext t t' hre hr hinv) h

theorem inv10_init [DecidableEq M] (nm pn : M → String) (pv : M → M → Rat)
    (p_forward : Rat) (effects : List Effect) (model : M) :
    Inv10 nm pn pv p_forward (Candidate.mk model [])
      (initState effects model) := by
  refine ⟨⟨by simp [initState], rfl, by simp [initState], ?_, ?_, ?_, ?_⟩,
    by simp [initState], ?_⟩
  · intro c hc _
    simpa [initState] using hc
  · intro c hc st hst
    have hceq : c = Candidate.mk model [] := by simpa [initState] using hc
    rw [hceq] at hst
    simp at hst
  · intro c hc hcs
    have hceq : c = Candidate.mk model [] := by simpa [initState] using hc
    rw [hceq] at hcs
    simp at hcs
  · intro c hc _ last hlast
    have hceq : c = Candidate.mk model [] := by simpa [initState] using hc
    rw [hceq] at hlast
    simp at hlast
  · intro last hlast
    simp [initState] at hlast

theorem optionMapAll_some {α β : Type} (f : α → Option β) :
    ∀ (l : List α), (∀ x ∈ l, ∃ y, f x = some y) →
      ∃ ys, optionMapAll f l = some ys
        ∧ ∀ y ∈ ys, ∃ x ∈ l, f x = some y := by
  intro l
  induction l with
  | nil => intro _; exact ⟨[], rfl, by simp⟩
  | cons x xs ih =>
    intro h
    obtain ⟨y, hy⟩ := h x (by simp)
    obtain ⟨ys, hys, hmem⟩ := ih (fun z hz => h z (by simp [hz]))
    refine ⟨y :: ys, by simp [optionMapAll, hy, hys], ?_⟩
    intro y' hy'
    rcases List.mem_cons.mp hy' with h' | h'
    · exact ⟨x, by simp, by rw [h']; exact hy⟩
    · obtain ⟨x', hx', hfx'⟩ := hmem y' h'
      exact ⟨x', by simp [hx'], hfx'⟩

theorem marke_some_selected_sig [DecidableEq M] {nm pn : M → String}
    {pv : M → M → Rat} {ofv : M → Rat} {candidates : List (Candidate M)}
    {best_model : M} {c : Candidate M} {row : StepsRow M}
    (h : marke_df_steps_row nm pn pv ofv candidates best_model c = some row) :
    row.selected = true → row.extended_significant = true := by
  simp only [marke_df_steps_row] at h
  split at h
  · exact absurd h (by simp)
  · rename_i parent_model hpm
    split at h
    · exact absurd h (by simp)
    · rename_i last hlast
      split at h
      · exact absurd h (by simp)
      · rename_i hguard
        cases h
        intro hsel
        have hsel' : (decide (1 ≤ candidates.countP
              (fun c' => decide (pn c'.model = nm c.model)))
            || decide (c.model = best_model)) = true := hsel
        have hgf : ((decide (1 ≤ candidates.countP
              (fun c' => decide (pn c'.model = nm c.model)))
            || decide (c.model = best_model))
            && ! decide (pv parent_model c.model ≤ last.alpha)) = false := by
          simpa using hguard
        rw [hsel'] at hgf
        show decide (pv parent_model c.model ≤ last.alpha) = true
        simpa using hgf

/-- C10: in the steps summary table built by `_make_df_steps` over the
candidate list of a completed forward-search run (with the ranking
instantiated to the spec-modelled `lrt_best_of_many`), every row marked
`selected` — the candidate's model is the parent of at least one other
candidate, or is the final best model — also has `extended_significant`
true, so the `assert not selected or extended_significant` never fails and
the whole table is produced.  The hypotheses state what the engine
guarantees: one fitted model per effect (`Hlen`), fresh model names
(`Hfresh`, `Hnodup`), `parent_model` set to the round parent's name
(`Hpn`), and `lrt_best_of_subtree` returning the input model or a model
whose own likelihood-ratio edge is significant (`Hbs`). -/
theorem covsearch_steps_assert_holds [DecidableEq M]
    (nm pn : M → String) (pv : M → M → Rat) (ofv : M → Rat)
    (cw : Nat → M → List Effect → List M) (effects : List Effect)
    (p_forward : Rat) (max_steps : Int) (model : M) (fuel : Nat)
    (Hlen : ∀ t, Reaches cw (fun p ms => lrt_best_of_many pv ofv p ms p_forward)
        p_forward (initState effects model) t →
        (cw t.step t.best.model t.candidate_effects).length
          = t.candidate_effects.length)
    (Hfresh : ∀ t, Reaches cw (fun p ms => lrt_best_of_many pv ofv p ms p_forward)
        p_forward (initState effects model) t →
        ∀ m ∈ cw t.step t.best.model t.candidate_effects,
          nm m ∉ t.all.map (fun c => nm c.model) ∧ nm m ≠ pn model)
    (Hnodup : ∀ t, Reaches cw (fun p ms => lrt_best_of_many pv ofv p ms p_forward)
        p_forward (initState effects model) t →
        ((cw t.step t.best.model t.candidate_effects).map nm).Nodup)
    (Hpn : ∀ t, Reaches cw (fun p ms => lrt_best_of_many pv ofv p ms p_forward)
        p_forward (initState effects model) t →
        ∀ m ∈ cw t.step t.best.model t.candidate_effects,
          pn m = nm t.best.model)
    (best_model : M) (r : List (Candidate M))
    (hrun : task_greedy_forward_search cw
        (fun p ms => lrt_best_of_many pv ofv p ms p_forward) effects p_forward
        max_steps model fuel = some (.ok r))
    (Hbs : best_model = model
      ∨ ∃ cb ∈ r, cb.model = best_model ∧ SigAgainstParent nm pn pv r cb) :
    ∃ rows, make_df_steps nm pn pv ofv best_model r = some rows
      ∧ ∀ row ∈ rows, row.selected = true → row.extended_significant = true := by
  have hgood : GoodList10 nm pn pv p_forward (Candidate.mk model []) r := by
    have H := @searchRun_fin M _ cw
      (fun p ms => lrt_best_of_many pv ofv p ms p_forward) p_forward
      (initState effects model)
      (Inv10 nm pn pv p_forward (Candidate.mk model []))
      (GoodList10 nm pn pv p_forward (Candidate.mk model []))
      (fun t t' hre hr hi =>
        inv10_round_next (Hlen t hre) (Hfresh t hre) (Hnodup t hre)
          (Hpn t hre) hi hr)
      (fun t rr hre hr hi =>
        inv10_round_done (Hlen t hre) (Hfresh t hre) (Hnodup t hre)
          (Hpn t hre) hi hr)
      (fun t _ hi => hi.1)
    unfold task_greedy_forward_search at hrun
    by_cases hms : 0 ≤ max_steps
    · rw [if_pos hms] at hrun
      exact H.1 max_steps.toNat _ r (Reaches.refl _)
        (inv10_init nm pn pv p_forward effects model) (Option.some.inj hrun)
    · rw [if_neg hms] at hrun
      exact H.2 fuel _ r (Reaches.refl _)
        (inv10_init nm pn pv p_forward effects model) hrun
  obtain ⟨hstartmem, hstart, hnodup, hzero, halpha, hres, hchild⟩ := hgood
  have hperc : ∀ c ∈ r.filter (fun c => ! c.steps.isEmpty),
      ∃ row, marke_df_steps_row nm pn pv ofv r best_model c = some row := by
    intro c hcf
    obtain ⟨hcr, hcne'⟩ := List.mem_filter.mp hcf
    have hne : c.steps ≠ [] := by
      intro hnil
      rw [hnil] at hcne'
      simp at hcne'
    obtain ⟨cp, hcp, hcpnm, hcpres⟩ := resolveParent_of_goodList
      ⟨hstartmem, hstart, hnodup, hzero, halpha, hres, hchild⟩ hcr hne
    have hlsome : c.steps.getLast?.isSome := by
      cases hcs : c.steps with
      | nil => exact absurd hcs hne
      | cons a t => simp [List.getLast?_isSome]
    obtain ⟨last, hlast⟩ := Option.isSome_iff_exists.mp hlsome
    have hsel_sig :
        (decide (1 ≤ r.countP (fun c' => decide (pn c'.model = nm c.model)))
          || decide (c.model = best_model)) = true →
        decide (pv cp.model c.model ≤ last.alpha) = true := by
      intro hsel
      have hsel2 : (1 ≤ r.countP (fun c' => decide (pn c'.model = nm c.model)))
          ∨ c.model = best_model := by simpa using hsel
      rcases hsel2 with hcnt | hbm
      · have hcnt' : 0 < r.countP (fun c' => decide (pn c'.model = nm c.model)) := by
          omega
        obtain ⟨c', hc', hp'⟩ := List.countP_pos_iff.mp hcnt'
        have hex : ∃ c'' ∈ r, pn c''.model = nm c.model :=
          ⟨c', hc', of_decide_eq_true hp'⟩
        exact decide_eq_true (hchild c hcr hex last hlast cp.model hcpres)
      · have hcm : c.model = best_model := hbm
        rcases Hbs with hb0 | ⟨cb, hcb, hcbm, hcbsig⟩
        · exfalso
          have hceq : c = Candidate.mk model [] :=
            List.inj_on_of_nodup_map hnodup hcr hstartmem (by rw [hcm, hb0])
          rw [hceq] at hne
          exact hne rfl
        · have hceq : c = cb :=
            List.inj_on_of_nodup_map hnodup hcr hcb (by rw [hcm, hcbm])
          subst hceq
          exact decide_eq_true (hcbsig last hlast cp.model hcpres)
    have hguard :
        ((decide (1 ≤ r.countP (fun c' => decide (pn c'.model = nm c.model)))
          || decide (c.model = best_model))
          && ! decide (pv cp.model c.model ≤ last.alpha)) = false := by
      cases hsb : (decide (1 ≤ r.countP
            (fun c' => decide (pn c'.model = nm c.model)))
          || decide (c.model = best_model)) with
      | false => simp
      | true =>
        rw [hsel_sig hsb]
        simp
    refine ⟨StepsRow.mk c.steps.length last.effect.parameter
        last.effect.covariate (last.effect.operation ++ " " ++ last.effect.fp)
        (ofv cp.model) (ofv c.model) (pv cp.model c.model) last.alpha
        last.is_backward (decide (pv cp.model c.model ≤ last.alpha))
        (decide (1 ≤ r.countP (fun c' => decide (pn c'.model = nm c.model)))
          || decide (c.model = best_model)) c.model, ?_⟩
    simp only [marke_df_steps_row, hcpres, hlast, hguard, Bool.false_eq_true,
      if_false]
  obtain ⟨rows, hrows, hmemrows⟩ := optionMapAll_some
    (marke_df_steps_row nm pn pv ofv r best_model)
    (r.filter (fun c => ! c.steps.isEmpty)) hperc
  refine ⟨rows, hrows, ?_⟩
  intro row hrow
  obtain ⟨c, hcf, hcrow⟩ := hmemrows row hrow
  exact marke_some_selected_sig hcrow

/-- Constant p-value oracle for the demo run (always significant). -/
def pvDemo : Nat → Nat → Rat := fun _ _ => 0

/-- Objective oracle for the demo run: model 201 best, then 2, then 1,
then the base model. -/
def ofvDemo : Nat → Rat :=
  fun m => if m = 201 then 0 else if m = 2 then 1 else if m = 1 then 2 else 3

/-- State after round 1 of the lrt-driven demo run (winner: model 2,
the `(V, WGT)` effect). -/
def demo10S1 : SearchState Nat :=
  SearchState.mk 2 [effCLWGT] (Candidate.mk 2 [Step.forward 0 effVWGT])
    [Candidate.mk 0 [], Candidate.mk 1 [Step.forward 0 effCLWGT],
      Candidate.mk 2 [Step.forward 0 effVWGT]]

/-- Candidate history of the lrt-driven demo run. -/
def rDemo10 : List (Candidate Nat) :=
  [Candidate.mk 0 [], Candidate.mk 1 [Step.forward 0 effCLWGT],
    Candidate.mk 2 [Step.forward 0 effVWGT],
    Candidate.mk 201 [Step.forward 0 effVWGT, Step.forward 0 effCLWGT]]

/-- State after round 2 of the lrt-driven demo run. -/
def demo10S2 : SearchState Nat :=
  SearchState.mk 3 []
    (Candidate.mk 201 [Step.forward 0 effVWGT, Step.forward 0 effCLWGT])
    rDemo10

theorem reachDemo10_enum : ∀ t,
    Reaches cwDemo (fun p ms => lrt_best_of_many pvDemo ofvDemo p ms 0) 0
      (initState demoEffects 0) t →
    t = initState demoEffects 0 ∨ t = demo10S1 ∨ t = demo10S2 := by
  intro t h
  induction h with
  | refl => exact Or.inl rfl
  | step hre hr ih =>
    rcases ih with h0 | h0 | h0 <;> subst h0
    · have hcomp : searchRound cwDemo
          (fun p ms => lrt_best_of_many pvDemo ofvDemo p ms 0) 0
          (initState demoEffects 0) = .next demo10S1 := by decide
      rw [hcomp] at hr
      exact Or.inr (Or.inl (RoundResult.next.inj hr).symm)
    · have hcomp : searchRound cwDemo
          (fun p ms => lrt_best_of_many pvDemo ofvDemo p ms 0) 0
          demo10S1 = .next demo10S2 := by decide
      rw [hcomp] at hr
      exact Or.inr (Or.inr (RoundResult.next.inj hr).symm)
    · have hcomp : searchRound cwDemo
          (fun p ms => lrt_best_of_many pvDemo ofvDemo p ms 0) 0
          demo10S2 = .done rDemo10 := by decide
      rw [hcomp] at hr
      exact absurd hr (by simp)

theorem demo10_oracle_props : ∀ t,
    Reaches cwDemo (fun p ms => lrt_best_of_many pvDemo ofvDemo p ms 0) 0
      (initState demoEffects 0) t →
    (cwDemo t.step t.best.model t.candidate_effects).length
        = t.candidate_effects.length
    ∧ (∀ m ∈ cwDemo t.step t.best.model t.candidate_effects,
        nmDemo m ∉ t.all.map (fun c => nmDemo c.model) ∧ nmDemo m ≠ pnDemo 0)
    ∧ ((cwDemo t.step t.best.model t.candidate_effects).map nmDemo).Nodup
    ∧ (∀ m ∈ cwDemo t.step t.best.model t.candidate_effects,
        pnDemo m = nmDemo t.best.model) := by
  intro t hre
  rcases reachDemo10_enum t hre with h | h | h <;> subst h <;>
    exact ⟨by decide, by decide, by decide, by decide⟩

theorem demo10_best_sig :
    SigAgainstParent nmDemo pnDemo pvDemo rDemo10
      (Candidate.mk 201 [Step.forward 0 effVWGT, Step.forward 0 effCLWGT]) := by
  intro last hlast pm hpm
  have hl0 : (Candidate.mk 201
      [Step.forward (0 : Rat) effVWGT, Step.forward (0 : Rat) effCLWGT]).steps.getLast?
      = some (Step.forward 0 effCLWGT) := rfl
  rw [hl0] at hlast
  cases hlast
  have hr0 : resolveParent nmDemo pnDemo rDemo10
      (Candidate.mk 201 [Step.forward 0 effVWGT, Step.forward 0 effCLWGT])
      = some 2 := by decide
  rw [hr0] at hpm
  cases hpm
  show (0 : Rat) ≤ 0
  exact le_refl 0

theorem covsearch_steps_assert_holds_witness :
    task_greedy_forward_search cwDemo
        (fun p ms => lrt_best_of_many pvDemo ofvDemo p ms 0) demoEffects 0 5 0 0
      = some (.ok rDemo10)
    ∧ ∃ rows, make_df_steps nmDemo pnDemo pvDemo ofvDemo 201 rDemo10 = some rows
        ∧ ∀ row ∈ rows, row.selected = true → row.extended_significant = true :=
  ⟨by decide,
    covsearch_steps_assert_holds nmDemo pnDemo pvDemo ofvDemo cwDemo demoEffects
      0 5 0 0
      (fun t hre => (demo10_oracle_props t hre).1)
      (fun t hre => (demo10_oracle_props t hre).2.1)
      (fun t hre => (demo10_oracle_props t hre).2.2.1)
      (fun t hre => (demo10_oracle_props t hre).2.2.2)
      201 rDemo10 (by decide)
      (Or.inr ⟨Candidate.mk 201 [Step.forward 0 effVWGT, Step.forward 0 effCLWGT],
        by decide, rfl, demo10_best_sig⟩)⟩

end Pharmpy
